import Mathlib

/-!
# Verification of the RLE / bit-packed codec and the trace lookup algorithm

A shallow embedding, in Lean 4, of the hybrid run-length / bit-packed codec
(`encodeBits`, `decodeBits`, `encodeBytes`, `decodeBytes`, `encodeInt32`,
`decodeInt32`, `EncodeBoolean`, `DecodeBoolean` of the `rle` Go package) and of
the trace lookup algorithm (`findTraceByID`, `binarySearch`, `FindTraceByID`
of the `vparquet` Go package), together with theorems settling the spec's
claims about them.

Conventions used throughout:
* Go byte slices are `List Nat` whose elements are < 256; `uint64` values are
  `Nat` (the embedded functions only ever produce values that fit, and
  machine-width hypotheses are stated explicitly where they matter).
* Go's `([]byte, error)` decoder returns become the inductive `DecRes`:
  `.ok dst`, `.err dst e` (the returned slice paired with a non-nil error of
  kind `e`; error kinds stand in for the Go error messages), and `.panic` for
  a Go runtime panic (out-of-bounds slice access).
* Loops are embedded as fuel-indexed structural recursions; every wrapper
  supplies fuel strictly larger than the number of iterations the loop can
  perform (each iteration consumes at least one byte / list element), and
  fuel-sufficiency lemmas discharge the difference.
-/

namespace Rle

/-- Error kinds of the codec, mirroring the error returns of the Go source. -/
inductive DecErr where
  | truncatedHeader
  | headerOverflow
  | countTooLarge
  | truncatedBody
  | invalidBitWidth
  | inputTooShort
  | lengthPrefixTooLarge
  deriving DecidableEq, Repr

/-- Result of a Go decoder call: the returned buffer with a nil error, the
returned buffer with a non-nil error, or a runtime panic. -/
inductive DecRes where
  | ok (dst : List Nat)
  | err (dst : List Nat) (e : DecErr)
  | panic
  deriving DecidableEq, Repr

/-- `maxSupportedValueCount` from the source: cap on a run's declared count. -/
def maxSupportedValueCount : Nat := 16 * 1024 * 1024

/-- `bitpack.ByteCount`: number of bytes needed to hold `bits` bits. -/
def byteCount (bits : Nat) : Nat := (bits + 7) / 8

/-- Result of `binary.Uvarint`, rendered as a sum type: Go returns `(u, n)`
with `n > 0` on success, `n = 0` when the buffer ends inside a varint
(`short`), and `n < 0` on 64-bit overflow (`overflow`). -/
inductive UvarintRes where
  | ok (u : Nat) (n : Nat)
  | short
  | overflow
  deriving DecidableEq, Repr

/-- The loop of Go's `binary.Uvarint`: `i` is the byte index, `x` the
accumulated value, `s` the shift.  Each 7-bit group lands in a disjoint bit
range, so accumulation by `+` matches Go's `|`.  (On the success path Go's
`uint64` arithmetic never truncates, so plain `Nat` is faithful there; on the
paths where Go's shift could drop bits the function always returns `overflow`
or `short`, with the accumulator discarded.) -/
def uvarintAux : List Nat → Nat → Nat → Nat → UvarintRes
  | [], _, _, _ => .short
  | b :: rest, i, x, s =>
    if i = 10 then .overflow
    else if b < 128 then
      if i = 9 ∧ b > 1 then .overflow
      else .ok (x + b * 2 ^ s) (i + 1)
    else uvarintAux rest (i + 1) (x + b % 128 * 2 ^ s) (s + 7)

/-- `binary.Uvarint`. -/
def uvarint (buf : List Nat) : UvarintRes := uvarintAux buf 0 0 0

/-- Fuel-indexed loop of Go's `binary.PutUvarint`: emit 7-bit groups,
low-order first, continuation bit on all but the last. -/
def putUvarintF : Nat → Nat → List Nat
  | 0, v => [v]
  | fuel + 1, v =>
    if v < 128 then [v] else (v % 128 + 128) :: putUvarintF fuel (v / 128)

/-- `appendUvarint`'s payload (`binary.PutUvarint`), as the emitted bytes. -/
def putUvarint (v : Nat) : List Nat := putUvarintF v v

theorem putUvarintF_sufficient (fuel₁ fuel₂ v : Nat) (h₁ : v ≤ fuel₁)
    (h₂ : v ≤ fuel₂) : putUvarintF fuel₁ v = putUvarintF fuel₂ v := by
  induction fuel₁ generalizing fuel₂ v with
  | zero =>
    have hv : v = 0 := Nat.le_zero.mp h₁
    cases fuel₂ <;> simp [putUvarintF, hv]
  | succ f ih =>
    cases fuel₂ with
    | zero =>
      have hv : v = 0 := Nat.le_zero.mp h₂
      simp [putUvarintF, hv]
    | succ g =>
      simp only [putUvarintF]
      by_cases hv : v < 128
      · simp [hv]
      · simp only [hv, if_false]
        have hd : v / 128 ≤ f := by
          have := Nat.div_le_self v 128
          have hvpos : 1 ≤ v := by omega
          have : v / 128 < v := Nat.div_lt_self hvpos (by omega)
          omega
        have hd₂ : v / 128 ≤ g := by
          have : v / 128 < v := Nat.div_lt_self (by omega) (by omega)
          omega
        rw [ih g (v / 128) hd hd₂]

/-- Unfolding equation for `putUvarint`. -/
theorem putUvarint_eq (v : Nat) :
    putUvarint v = if v < 128 then [v] else (v % 128 + 128) :: putUvarint (v / 128) := by
  unfold putUvarint
  cases v with
  | zero => simp [putUvarintF]
  | succ n =>
    simp only [putUvarintF]
    by_cases hv : n + 1 < 128
    · simp [hv]
    · simp only [hv, if_false]
      congr 1
      exact putUvarintF_sufficient n ((n + 1) / 128) ((n + 1) / 128)
        (by have := Nat.div_lt_self (Nat.succ_pos n) (by omega : 1 < 128); omega)
        (le_refl _)

theorem putUvarint_ne_nil (v : Nat) : putUvarint v ≠ [] := by
  rw [putUvarint_eq]
  split
  · exact List.cons_ne_nil _ _
  · exact List.cons_ne_nil _ _

/-- Every byte emitted by `putUvarint` is a byte (`< 256`). -/
theorem putUvarint_lt_256 (v : Nat) : ∀ b ∈ putUvarint v, b < 256 := by
  induction v using Nat.strong_induction_on with
  | _ v ih =>
    rw [putUvarint_eq]
    by_cases hv : v < 128
    · intro b hb
      rw [if_pos hv] at hb
      have : b = v := List.mem_singleton.mp hb
      omega
    · intro b hb
      rw [if_neg hv] at hb
      rcases List.mem_cons.mp hb with h | h
      · have := Nat.mod_lt v (y := 128) (by omega); omega
      · exact ih (v / 128) (Nat.div_lt_self (by omega) (by omega)) b h

/-- Length of the varint encoding: at most 10 bytes for `v < 2 ^ 64`
(and at most `k` bytes whenever `v < 2 ^ (7 * k)`). -/
theorem putUvarint_length_le (v k : Nat) (hk : 1 ≤ k) (h : v < 2 ^ (7 * k)) :
    (putUvarint v).length ≤ k := by
  induction k generalizing v with
  | zero => omega
  | succ k ih =>
    rw [putUvarint_eq]
    by_cases hv : v < 128
    · rw [if_pos hv]
      simp
    · simp only [hv, if_false, List.length_cons]
      have hk1 : 1 ≤ k := by
        by_contra hk0
        have : k = 0 := by omega
        subst this
        simp at h
        omega
      have hdiv : v / 128 < 2 ^ (7 * k) := by
        rw [Nat.div_lt_iff_lt_mul (by omega : 0 < 128)]
        calc v < 2 ^ (7 * (k + 1)) := h
        _ = 2 ^ (7 * k) * 128 := by ring
      have := ih (v / 128) hk1 hdiv
      omega

theorem uvarintAux_ok_bounds (buf : List Nat) (i x s u n : Nat)
    (h : uvarintAux buf i x s = .ok u n) : i + 1 ≤ n ∧ n ≤ i + buf.length := by
  induction buf generalizing i x s with
  | nil => simp [uvarintAux] at h
  | cons b rest ih =>
    simp only [uvarintAux] at h
    by_cases h10 : i = 10
    · simp [h10] at h
    · simp only [h10, if_false] at h
      by_cases hb : b < 128
      · simp only [hb, if_true] at h
        by_cases h9 : i = 9 ∧ b > 1
        · simp [h9] at h
        · simp only [h9, if_false] at h
          cases h
          simp
      · simp only [hb, if_false] at h
        have := ih (i + 1) (x + b % 128 * 2 ^ s) (s + 7) h
        simp only [List.length_cons]
        omega

theorem uvarint_ok_bounds (buf : List Nat) (u n : Nat)
    (h : uvarint buf = .ok u n) : 1 ≤ n ∧ n ≤ buf.length := by
  have := uvarintAux_ok_bounds buf 0 0 0 u n h
  omega

/-- Round-trip of the varint encoding through `uvarintAux`. -/
theorem uvarintAux_putUvarint (u : Nat) (rest : List Nat) (i x : Nat)
    (hi : i ≤ 9) (hu : u < 2 ^ (64 - 7 * i)) :
    uvarintAux (putUvarint u ++ rest) i x (7 * i) =
      .ok (x + u * 2 ^ (7 * i)) (i + (putUvarint u).length) := by
  induction u using Nat.strong_induction_on generalizing rest i x with
  | _ u ih =>
    rw [putUvarint_eq]
    by_cases hv : u < 128
    · simp only [if_pos hv, List.cons_append, List.nil_append, uvarintAux]
      have hi10 : ¬ (i = 10) := by omega
      simp only [hi10, if_false, if_pos hv]
      by_cases h9 : i = 9
      · have hu2 : u < 2 := by
          subst h9
          simpa using hu
        have : ¬ (i = 9 ∧ u > 1) := by omega
        simp [this]
      · have : ¬ (i = 9 ∧ u > 1) := by omega
        simp [this]
    · simp only [if_neg hv, List.cons_append, uvarintAux]
      have hi10 : ¬ (i = 10) := by omega
      have hbig : ¬ (u % 128 + 128 < 128) := by omega
      simp only [hi10, if_false, hbig]
      have hi9 : i ≤ 8 := by
        rcases Nat.lt_or_ge i 9 with h | h
        · omega
        · exfalso
          have hi' : i = 9 := by omega
          subst hi'
          have : u < 2 := by simpa using hu
          omega
      have hdiv : u / 128 < 2 ^ (64 - 7 * (i + 1)) := by
        rw [Nat.div_lt_iff_lt_mul (by omega : 0 < 128)]
        have h1 : 2 ^ (64 - 7 * (i + 1)) * 128 = 2 ^ (64 - 7 * i) := by
          have : 64 - 7 * i = (64 - 7 * (i + 1)) + 7 := by omega
          rw [this, pow_add]
          norm_num
        rw [h1]
        exact hu
      rw [show (u % 128 + 128) % 128 = u % 128 from by omega,
        show 7 * i + 7 = 7 * (i + 1) from by ring]
      have hrec := ih (u / 128) (Nat.div_lt_self (by omega) (by omega)) rest
        (i + 1) (x + u % 128 * 2 ^ (7 * i)) (by omega) hdiv
      rw [hrec]
      have hval : x + u % 128 * 2 ^ (7 * i) + u / 128 * 2 ^ (7 * (i + 1)) =
          x + u * 2 ^ (7 * i) := by
        have h2 : 2 ^ (7 * (i + 1)) = 2 ^ (7 * i) * 128 := by
          rw [show 7 * (i + 1) = 7 * i + 7 from by ring, pow_add]
          norm_num
        have hm : u % 128 + 128 * (u / 128) = u := Nat.mod_add_div u 128
        calc x + u % 128 * 2 ^ (7 * i) + u / 128 * 2 ^ (7 * (i + 1))
            = x + (u % 128 + 128 * (u / 128)) * 2 ^ (7 * i) := by rw [h2]; ring
          _ = x + u * 2 ^ (7 * i) := by rw [hm]
      rw [hval]
      congr 1
      simp only [List.length_cons]
      omega

/-- Round-trip: decoding a varint-encoded value with any suffix. -/
theorem uvarint_putUvarint (u : Nat) (rest : List Nat) (hu : u < 2 ^ 64) :
    uvarint (putUvarint u ++ rest) = .ok u (putUvarint u).length := by
  have := uvarintAux_putUvarint u rest 0 0 (by omega) (by simpa using hu)
  simpa [uvarint] using this

/-! ### Little-endian bytes and the bit-packed payload

`bitpack.PackInt32` / `bitpack.UnpackInt32`, `encodeBytesBitpack` and
`decodeBytesBitpack` are architecture-specific assembly in the repository and
their bodies are not under `src/`.  Modelled from the spec: "bit i of value j
lands at absolute bit position `j·w + i` (LSB-first within each byte)" and
"`unpack` is the exact inverse for all `0 ≤ w ≤ 32`", i.e. the payload of a
bit-packed run is the little-endian byte rendering of the number
`Σⱼ (vⱼ mod 2ʷ)·2^(j·w)`, and unpacking reads the `w`-bit digits back. -/

/-- `natToLE k n`: the `k` little-endian bytes of `n` (`n mod 2^(8k)`). -/
def natToLE : Nat → Nat → List Nat
  | 0, _ => []
  | k + 1, n => n % 256 :: natToLE k (n / 256)

/-- `leToNat bs`: read a little-endian byte list as a number. -/
def leToNat : List Nat → Nat
  | [] => 0
  | b :: rest => b + 256 * leToNat rest

/-- `packNat w vs`: the values as little-endian `w`-bit digits of one number.
Modelled from the spec: only the low `w` bits of each value are stored. -/
def packNat (w : Nat) : List Nat → Nat
  | [] => 0
  | v :: rest => v % 2 ^ w + 2 ^ w * packNat w rest

/-- `unpackW w c n`: read `c` consecutive `w`-bit digits of `n`. -/
def unpackW (w : Nat) : Nat → Nat → List Nat
  | 0, _ => []
  | c + 1, n => n % 2 ^ w :: unpackW w c (n / 2 ^ w)

/-- `pack w vs`: the byte payload of a bit-packed run holding `vs`
(modelled from the spec, standing in for `encodeBytesBitpack` /
`bitpack.PackInt32`). -/
def pack (w : Nat) (vs : List Nat) : List Nat :=
  natToLE (byteCount (vs.length * w)) (packNat w vs)

/-- `unpack w c bs`: the `c` values stored in the byte payload `bs`
(modelled from the spec, standing in for `decodeBytesBitpack` /
`bitpack.UnpackInt32`). -/
def unpack (w c : Nat) (bs : List Nat) : List Nat :=
  unpackW w c (leToNat bs)

@[simp] theorem natToLE_length (k n : Nat) : (natToLE k n).length = k := by
  induction k generalizing n with
  | zero => rfl
  | succ k ih => simp [natToLE, ih]

theorem natToLE_lt_256 (k n : Nat) : ∀ b ∈ natToLE k n, b < 256 := by
  induction k generalizing n with
  | zero => intro b hb; simp [natToLE] at hb
  | succ k ih =>
    intro b hb
    rcases List.mem_cons.mp hb with h | h
    · subst h; exact Nat.mod_lt _ (by omega)
    · exact ih (n / 256) b h

theorem leToNat_natToLE (k n : Nat) (h : n < 2 ^ (8 * k)) :
    leToNat (natToLE k n) = n := by
  induction k generalizing n with
  | zero => simp at h; simp [natToLE, leToNat, h]
  | succ k ih =>
    simp only [natToLE, leToNat]
    have hdiv : n / 256 < 2 ^ (8 * k) := by
      rw [Nat.div_lt_iff_lt_mul (by omega : 0 < 256)]
      calc n < 2 ^ (8 * (k + 1)) := h
        _ = 2 ^ (8 * k) * 256 := by rw [show 8 * (k + 1) = 8 * k + 8 from by ring, pow_add]; norm_num
    rw [ih (n / 256) hdiv]
    omega

theorem packNat_lt (w : Nat) (vs : List Nat) : packNat w vs < 2 ^ (vs.length * w) := by
  induction vs with
  | nil => simp [packNat]
  | cons v rest ih =>
    simp only [packNat, List.length_cons]
    have hm : v % 2 ^ w < 2 ^ w := Nat.mod_lt _ (Nat.pos_pow_of_pos w (by omega))
    calc v % 2 ^ w + 2 ^ w * packNat w rest
        < 2 ^ w + 2 ^ w * packNat w rest := Nat.add_lt_add_right hm _
      _ = 2 ^ w * (packNat w rest + 1) := by ring
      _ ≤ 2 ^ w * 2 ^ (rest.length * w) := Nat.mul_le_mul_left _ (by omega)
      _ = 2 ^ ((rest.length + 1) * w) := by
          rw [← pow_add]
          congr 1
          ring

/-- Digit-level round-trip of bit packing. -/
theorem unpackW_packNat (w : Nat) (vs : List Nat) :
    unpackW w vs.length (packNat w vs) = vs.map (· % 2 ^ w) := by
  induction vs with
  | nil => simp [unpackW, packNat]
  | cons v rest ih =>
    simp only [List.length_cons, unpackW, packNat, List.map_cons]
    have hm : v % 2 ^ w < 2 ^ w := Nat.mod_lt _ (Nat.pos_pow_of_pos w (by omega))
    have h1 : (v % 2 ^ w + 2 ^ w * packNat w rest) % 2 ^ w = v % 2 ^ w := by
      rw [Nat.add_mul_mod_self_left]
      exact Nat.mod_eq_of_lt hm
    have h2 : (v % 2 ^ w + 2 ^ w * packNat w rest) / 2 ^ w = packNat w rest := by
      rw [Nat.add_mul_div_left _ _ (Nat.pos_pow_of_pos w (by omega))]
      rw [Nat.div_eq_of_lt hm]
      omega
    rw [h1, h2, ih]

/-- Byte-level round-trip: unpacking a packed payload returns the values. -/
theorem unpack_pack (w : Nat) (vs : List Nat) (hv : ∀ v ∈ vs, v < 2 ^ w) :
    unpack w vs.length (pack w vs) = vs := by
  unfold unpack pack
  have hlt : packNat w vs < 2 ^ (8 * byteCount (vs.length * w)) := by
    have h1 := packNat_lt w vs
    have h2 : vs.length * w ≤ 8 * byteCount (vs.length * w) := by
      unfold byteCount
      omega
    calc packNat w vs < 2 ^ (vs.length * w) := h1
      _ ≤ 2 ^ (8 * byteCount (vs.length * w)) := Nat.pow_le_pow_right (by omega) h2
  rw [leToNat_natToLE _ _ hlt, unpackW_packNat]
  conv_rhs => rw [← List.map_id vs]
  apply List.map_congr_left
  intro v hvmem
  exact Nat.mod_eq_of_lt (hv v hvmem)

theorem pack_length (w : Nat) (vs : List Nat) :
    (pack w vs).length = byteCount (vs.length * w) := by
  simp [pack]

/-! ### Decoders -/

/-- The loop of `decodeBytes`, indexed by fuel.  Each loop iteration consumes
at least one input byte, so fuel `src.length + 1` always suffices; running out
of fuel yields the (unreachable) `.panic` marker. -/
def decodeBytesF : Nat → List Nat → List Nat → Nat → DecRes
  | 0, _, _, _ => .panic
  | fuel + 1, dst, src, w =>
    match src with
    | [] => .ok dst
    | _ :: _ =>
      match uvarint src with
      | .short => .err dst .truncatedHeader
      | .overflow => .err dst .headerOverflow
      | .ok u n =>
        let s := src.drop n
        let count := u / 2
        if count > maxSupportedValueCount then .err dst .countTooLarge
        else if u % 2 = 1 then
          let c8 := 8 * count
          let need := byteCount (c8 * w)
          if s.length < need then .err dst .truncatedBody
          else decodeBytesF fuel (dst ++ unpack w c8 (s.take need)) (s.drop need) w
        else
          if w ≠ 0 ∧ s.length < 1 then .err dst .truncatedBody
          else
            let word := if w = 0 then 0 else s.headD 0
            let s' := if w = 0 then s else s.tail
            decodeBytesF fuel (dst ++ List.replicate count word) s' w

/-- `decodeBytes` from the source (levels / byte-width streams). -/
def decodeBytes (dst src : List Nat) (w : Nat) : DecRes :=
  if w > 8 then .err dst .invalidBitWidth
  else decodeBytesF (src.length + 1) dst src w

/-- The loop of `decodeBits` (boolean pages), indexed by fuel.  In the
run-length branch the source reads the value byte only `if i < len(src)`,
substituting `byte(0)` otherwise — a missing value byte is not an error. -/
def decodeBitsF : Nat → List Nat → List Nat → DecRes
  | 0, _, _ => .panic
  | fuel + 1, dst, src =>
    match src with
    | [] => .ok dst
    | _ :: _ =>
      match uvarint src with
      | .short => .err dst .truncatedHeader
      | .overflow => .err dst .headerOverflow
      | .ok u n =>
        let s := src.drop n
        let count := u / 2
        if count > maxSupportedValueCount then .err dst .countTooLarge
        else if u % 2 = 1 then
          if s.length < count then .err dst .truncatedBody
          else decodeBitsF fuel (dst ++ s.take count) (s.drop count)
        else
          decodeBitsF fuel (dst ++ List.replicate (byteCount count) (s.headD 0)) s.tail

/-- `decodeBits` from the source. -/
def decodeBits (dst src : List Nat) : DecRes :=
  decodeBitsF (src.length + 1) dst src

/-- The loop of `decodeInt32`, indexed by fuel.  The output buffer is viewed
as the `[]int32` value stream (each `Nat` is one 32-bit pattern).  In the
bit-packed branch the source slices `src[i : i+length]` without a bounds
check — when fewer than `length` bytes remain this is a Go runtime panic
(slice out of range), embedded as `.panic`. -/
def decodeInt32F : Nat → List Nat → List Nat → Nat → DecRes
  | 0, _, _, _ => .panic
  | fuel + 1, dst, src, w =>
    match src with
    | [] => .ok dst
    | _ :: _ =>
      match uvarint src with
      | .short => .err dst .truncatedHeader
      | .overflow => .err dst .headerOverflow
      | .ok u n =>
        let s := src.drop n
        let count := u / 2
        if count > maxSupportedValueCount then .err dst .countTooLarge
        else if u % 2 = 1 then
          let length := count * w
          if s.length < length then .panic
          else decodeInt32F fuel (dst ++ unpack w (8 * count) (s.take length)) (s.drop length) w
        else
          let need := byteCount w
          if s.length < need then .err dst .truncatedBody
          else decodeInt32F fuel (dst ++ List.replicate count (leToNat (s.take need)))
            (s.drop need) w

/-- `decodeInt32` from the source. -/
def decodeInt32 (dst src : List Nat) (w : Nat) : DecRes :=
  if w > 32 then .err dst .invalidBitWidth
  else decodeInt32F (src.length + 1) dst src w

/-! ### Encoders -/

/-- `isZero` from the source: all bytes 0x00. -/
def isZero (s : List Nat) : Bool := s.all (· = 0)

/-- `isOnes` from the source: all bytes 0xFF. -/
def isOnes (s : List Nat) : Bool := s.all (· = 255)

/-- Number of leading elements equal to `x` (the `for ... src[i] == src[j]`
run-counting loops of the encoders). -/
def countLeadEq {α : Type} [DecidableEq α] (x : α) : List α → Nat
  | [] => 0
  | y :: ys => if y = x then 1 + countLeadEq x ys else 0

/-- Extent loop of the bit-packed branch of `encodeBits`: continue while the
current byte differs from the previous one or is 0xFF
(`src[j-1] != src[j] || (src[j] != 0 && src[j] == 0xFF)`). -/
def bpExtentBits (prev : Nat) : List Nat → Nat
  | [] => 0
  | y :: ys => if prev ≠ y ∨ y = 255 then 1 + bpExtentBits y ys else 0

/-- The loop of `encodeBits`, indexed by fuel; returns the emitted bytes. -/
def encodeBitsF : Nat → List Nat → List Nat
  | 0, _ => []
  | fuel + 1, [] => []
  | fuel + 1, x :: rest =>
    let k := 1 + countLeadEq x rest
    if (x = 0 ∨ x = 255) ∧ k > 1 then
      putUvarint (2 * (8 * k)) ++ [x] ++ encodeBitsF fuel (rest.drop (k - 1))
    else
      let m0 := 1 + bpExtentBits x rest
      let m := if m0 > 1 ∧ m0 < rest.length + 1 then m0 - 1 else m0
      putUvarint (2 * m + 1) ++ (x :: rest).take m ++ encodeBitsF fuel (rest.drop (m - 1))

/-- `encodeBits` from the source (boolean stream bodies).  Never errors. -/
def encodeBits (src : List Nat) : List Nat :=
  if src = [] ∨ isZero src ∨ isOnes src then
    putUvarint (2 * (8 * src.length)) ++ (if src = [] then [] else [src.headD 0])
  else encodeBitsF (src.length + 1) src

/-- Overwrite the first four bytes with the little-endian `uint32` rendering
of `v` (`binary.LittleEndian.PutUint32(dst, ...)`). -/
def putUint32At0 (v : Nat) (bs : List Nat) : List Nat := natToLE 4 v ++ bs.drop 4

/-- `EncodeBoolean` from the source: reserve a 4-byte placeholder, encode the
body, then backfill the little-endian body length. -/
def EncodeBoolean (src : List Nat) : List Nat :=
  let d := [0, 0, 0, 0] ++ encodeBits src
  putUint32At0 (d.length - 4) d

/-- `DecodeBoolean` from the source.  An input of exactly 4 bytes is treated
as an empty page regardless of its content. -/
def DecodeBoolean (dst src : List Nat) : DecRes :=
  if src.length = 4 then .ok []
  else if src.length < 4 then .err [] .inputTooShort
  else
    let n := leToNat (src.take 4)
    let s := src.drop 4
    if n > s.length then .err [] .lengthPrefixTooLarge
    else decodeBits [] (s.take n)

/-- The full groups of 8 of a list (`unsafe.Slice(..., len(src)/8)`); the
tail shorter than 8 is handled by the encoders' tail loops. -/
def fullChunks8F : Nat → List Nat → List (List Nat)
  | 0, _ => []
  | fuel + 1, s => if s.length < 8 then [] else s.take 8 :: fullChunks8F fuel (s.drop 8)

/-- Groups of 8 of a byte / value stream. -/
def fullChunks8 (s : List Nat) : List (List Nat) := fullChunks8F s.length s

/-- Extent loop of the bit-packed branch of `encodeBytes`: continue while the
current group differs from the broadcast of the previous group's first byte
(`words[j] != broadcast8x1(words[j-1])`). -/
def bpExtentBytes (prev : List Nat) : List (List Nat) → Nat
  | [] => 0
  | y :: ys => if y = List.replicate 8 (prev.headD 0) then 0 else 1 + bpExtentBytes y ys

/-- The groups-of-8 loop of `encodeBytes`, indexed by fuel; emits the runs
covering the full groups.  A group equal to the broadcast of its own first
byte starts a run-length run; otherwise a bit-packed run extends per
`bpExtentBytes`. -/
def encodeBytesGroupsF : Nat → List (List Nat) → Nat → List Nat
  | 0, _, _ => []
  | _ + 1, [], _ => []
  | fuel + 1, wd :: rest, w =>
    if wd = List.replicate 8 (wd.headD 0) then
      let k := 1 + countLeadEq wd rest
      putUvarint (2 * (8 * k)) ++ [wd.headD 0] ++ encodeBytesGroupsF fuel (rest.drop (k - 1)) w
    else
      let m := 1 + bpExtentBytes wd rest
      putUvarint (2 * m + 1) ++ pack w ((wd :: rest).take m).flatten ++
        encodeBytesGroupsF fuel (rest.drop (m - 1)) w

/-- The tail loop of `encodeBytes`: one run-length run per maximal equal run
of the remaining (< 8) bytes. -/
def encodeRleTailF : Nat → List Nat → List Nat
  | 0, _ => []
  | _ + 1, [] => []
  | fuel + 1, x :: rest =>
    let k := 1 + countLeadEq x rest
    putUvarint (2 * k) ++ [x] ++ encodeRleTailF fuel (rest.drop (k - 1))

/-- `encodeBytes` from the source, as the emitted bytes (`dst[:0]` start). -/
def encodeBytes (src : List Nat) (w : Nat) : Except DecErr (List Nat) :=
  if w > 8 then .error .invalidBitWidth
  else if w = 0 then
    if isZero src then .ok (putUvarint (2 * src.length)) else .error .invalidBitWidth
  else .ok (encodeBytesGroupsF (src.length / 8 + 1) (fullChunks8 src) w ++
    encodeRleTailF (src.length + 1) (src.drop (8 * (src.length / 8))))

/-- `encodeInt32IndexEqual8Contiguous` (architecture-specific assembly, not
under `src/`).  Modelled from the spec: the bit-packed run is extended
"while the next group is not a constant group", so this returns the number of
leading groups that are not the broadcast of their own first value. -/
def bpExtentInt32 : List (List Nat) → Nat
  | [] => 0
  | y :: ys => if y = List.replicate 8 (y.headD 0) then 0 else 1 + bpExtentInt32 ys

/-- The groups-of-8 loop of `encodeInt32`, indexed by fuel.  Values are the
32-bit patterns of the `[8]int32` words. -/
def encodeInt32GroupsF : Nat → List (List Nat) → Nat → List Nat
  | 0, _, _ => []
  | _ + 1, [], _ => []
  | fuel + 1, wd :: rest, w =>
    if wd = List.replicate 8 (wd.headD 0) then
      let k := 1 + countLeadEq wd rest
      putUvarint (2 * (8 * k)) ++ natToLE (byteCount w) (wd.headD 0) ++
        encodeInt32GroupsF fuel (rest.drop (k - 1)) w
    else
      let m := 1 + bpExtentInt32 rest
      putUvarint (2 * m + 1) ++ pack w ((wd :: rest).take m).flatten ++
        encodeInt32GroupsF fuel (rest.drop (m - 1)) w

/-- The tail loop of `encodeInt32` (`appendRunLengthInt32` per maximal run). -/
def encodeRleTailInt32F : Nat → List Nat → Nat → List Nat
  | 0, _, _ => []
  | _ + 1, [], _ => []
  | fuel + 1, x :: rest, w =>
    let k := 1 + countLeadEq x rest
    putUvarint (2 * k) ++ natToLE (byteCount w) x ++
      encodeRleTailInt32F fuel (rest.drop (k - 1)) w

/-- `encodeInt32` from the source, on the `[]int32` value view (each `Nat`
one 32-bit pattern); `isZero` on the underlying bytes is all-values-zero. -/
def encodeInt32 (src : List Nat) (w : Nat) : Except DecErr (List Nat) :=
  if w > 32 then .error .invalidBitWidth
  else if w = 0 then
    if isZero src then .ok (putUvarint (2 * src.length)) else .error .invalidBitWidth
  else .ok (encodeInt32GroupsF (src.length / 8 + 1) (fullChunks8 src) w ++
    encodeRleTailInt32F (src.length + 1) (src.drop (8 * (src.length / 8))) w)

/-! ### Helper lemmas about the encoder loops -/

theorem countLeadEq_le {α : Type} [DecidableEq α] (x : α) (l : List α) :
    countLeadEq x l ≤ l.length := by
  induction l with
  | nil => simp [countLeadEq]
  | cons y ys ih =>
    simp only [countLeadEq, List.length_cons]
    split <;> omega

theorem countLeadEq_take {α : Type} [DecidableEq α] (x : α) (l : List α) :
    l.take (countLeadEq x l) = List.replicate (countLeadEq x l) x := by
  induction l with
  | nil => simp [countLeadEq]
  | cons y ys ih =>
    simp only [countLeadEq]
    by_cases hy : y = x
    · subst hy
      rw [if_pos rfl, Nat.add_comm 1 (countLeadEq y ys)]
      simp only [List.take_succ_cons, List.replicate_succ]
      rw [ih]
    · simp [hy]

theorem bpExtentBits_le (prev : Nat) (l : List Nat) : bpExtentBits prev l ≤ l.length := by
  induction l generalizing prev with
  | nil => simp [bpExtentBits]
  | cons y ys ih =>
    simp only [bpExtentBits, List.length_cons]
    split
    · have := ih y; omega
    · omega

theorem bpExtentBytes_le (prev : List Nat) (l : List (List Nat)) :
    bpExtentBytes prev l ≤ l.length := by
  induction l generalizing prev with
  | nil => simp [bpExtentBytes]
  | cons y ys ih =>
    simp only [bpExtentBytes, List.length_cons]
    split
    · omega
    · have := ih y; omega

theorem bpExtentInt32_le (l : List (List Nat)) : bpExtentInt32 l ≤ l.length := by
  induction l with
  | nil => simp [bpExtentInt32]
  | cons y ys ih =>
    simp only [bpExtentInt32, List.length_cons]
    split <;> omega

theorem fullChunks8F_sufficient (f₁ f₂ : Nat) (s : List Nat) (h₁ : s.length ≤ 8 * f₁)
    (h₂ : s.length ≤ 8 * f₂) : fullChunks8F f₁ s = fullChunks8F f₂ s := by
  induction f₁ generalizing f₂ s with
  | zero =>
    have : s.length < 8 := by omega
    cases f₂ with
    | zero => rfl
    | succ g => simp [fullChunks8F, this]
  | succ f ih =>
    cases f₂ with
    | zero =>
      have : s.length < 8 := by omega
      simp [fullChunks8F, this]
    | succ g =>
      simp only [fullChunks8F]
      by_cases hs : s.length < 8
      · simp [hs]
      · simp only [hs, if_false]
        rw [ih g (s.drop 8) (by simp; omega) (by simp; omega)]

/-- Unfolding equation for `fullChunks8`. -/
theorem fullChunks8_eq (s : List Nat) :
    fullChunks8 s = if s.length < 8 then [] else s.take 8 :: fullChunks8 (s.drop 8) := by
  by_cases hs : s.length < 8
  · rw [if_pos hs]
    unfold fullChunks8
    cases hf : s.length with
    | zero => simp [fullChunks8F]
    | succ m =>
      have hs' : s.length < 8 := hf ▸ hs
      rw [hf] at hs
      simp [fullChunks8F, hs, hs']
  · rw [if_neg hs]
    unfold fullChunks8
    obtain ⟨m, hm⟩ : ∃ m, s.length = m + 1 := ⟨s.length - 1, by omega⟩
    rw [hm]
    simp only [fullChunks8F]
    rw [if_neg hs]
    congr 1
    exact fullChunks8F_sufficient m (s.drop 8).length (s.drop 8)
      (by simp; omega) (by simp; omega)

theorem fullChunks8_flatten (s : List Nat) :
    (fullChunks8 s).flatten = s.take (8 * (s.length / 8)) := by
  generalize hn : s.length = n
  induction n using Nat.strong_induction_on generalizing s with
  | _ n ih =>
    subst hn
    rw [fullChunks8_eq]
    by_cases hs : s.length < 8
    · have h0 : s.length / 8 = 0 := Nat.div_eq_of_lt hs
      simp [hs, h0]
    · simp only [hs, if_false, List.flatten_cons]
      have hd : (s.drop 8).length = s.length - 8 := by simp
      rw [ih (s.drop 8).length (by simp; omega) (s.drop 8) rfl, hd]
      have h8 : 8 * (s.length / 8) = 8 + 8 * ((s.length - 8) / 8) := by omega
      rw [h8, List.take_add]

theorem fullChunks8_length (s : List Nat) :
    (fullChunks8 s).length = s.length / 8 := by
  generalize hn : s.length = n
  induction n using Nat.strong_induction_on generalizing s with
  | _ n ih =>
    subst hn
    rw [fullChunks8_eq]
    by_cases hs : s.length < 8
    · have h0 : s.length / 8 = 0 := Nat.div_eq_of_lt hs
      simp [hs, h0]
    · simp only [hs, if_false, List.length_cons]
      rw [ih (s.drop 8).length (by simp; omega) (s.drop 8) rfl]
      simp only [List.length_drop]
      omega

theorem fullChunks8_chunk_length (s : List Nat) :
    ∀ c ∈ fullChunks8 s, c.length = 8 := by
  generalize hn : s.length = n
  induction n using Nat.strong_induction_on generalizing s with
  | _ n ih =>
    subst hn
    rw [fullChunks8_eq]
    by_cases hs : s.length < 8
    · simp [hs]
    · simp only [hs, if_false]
      intro c hc
      rcases List.mem_cons.mp hc with h | h
      · subst h
        simp
        omega
      · exact ih (s.drop 8).length (by simp; omega) (s.drop 8) rfl c h

theorem decodeBytesF_congr (f₁ f₂ : Nat) (dst src : List Nat) (w : Nat)
    (h₁ : src.length < f₁) (h₂ : src.length < f₂) :
    decodeBytesF f₁ dst src w = decodeBytesF f₂ dst src w := by
  induction f₁ generalizing f₂ dst src with
  | zero => omega
  | succ a ih =>
    obtain ⟨b, rfl⟩ : ∃ b, f₂ = b + 1 := ⟨f₂ - 1, by omega⟩
    cases src with
    | nil => simp [decodeBytesF]
    | cons x xs =>
      simp only [decodeBytesF]
      cases hu : uvarint (x :: xs) with
      | short => rfl
      | overflow => rfl
      | ok u n =>
        obtain ⟨hn1, hn2⟩ := uvarint_ok_bounds _ _ _ hu
        simp only []
        by_cases hc : u / 2 > maxSupportedValueCount
        · simp only [if_pos hc]
        · rw [if_neg hc, if_neg hc]
          by_cases hm : u % 2 = 1
          · rw [if_pos hm, if_pos hm]
            by_cases hlen : ((x :: xs).drop n).length < byteCount (8 * (u / 2) * w)
            · rw [if_pos hlen, if_pos hlen]
            · rw [if_neg hlen, if_neg hlen]
              apply ih
              · simp only [List.length_drop, List.length_cons] at *
                omega
              · simp only [List.length_drop, List.length_cons] at *
                omega
          · rw [if_neg hm, if_neg hm]
            by_cases hv : w ≠ 0 ∧ ((x :: xs).drop n).length < 1
            · rw [if_pos hv, if_pos hv]
            · rw [if_neg hv, if_neg hv]
              have hs' : (if w = 0 then (x :: xs).drop n else ((x :: xs).drop n).tail).length
                  ≤ xs.length + 1 - n := by
                split
                · simp
                · simp only [List.length_tail, List.length_drop, List.length_cons]
                  omega
              apply ih
              · simp only [List.length_cons] at h₁
                omega
              · simp only [List.length_cons] at h₂
                omega

theorem decodeInt32F_congr (f₁ f₂ : Nat) (dst src : List Nat) (w : Nat)
    (h₁ : src.length < f₁) (h₂ : src.length < f₂) :
    decodeInt32F f₁ dst src w = decodeInt32F f₂ dst src w := by
  induction f₁ generalizing f₂ dst src with
  | zero => omega
  | succ a ih =>
    obtain ⟨b, rfl⟩ : ∃ b, f₂ = b + 1 := ⟨f₂ - 1, by omega⟩
    cases src with
    | nil => simp [decodeInt32F]
    | cons x xs =>
      simp only [decodeInt32F]
      cases hu : uvarint (x :: xs) with
      | short => rfl
      | overflow => rfl
      | ok u n =>
        obtain ⟨hn1, hn2⟩ := uvarint_ok_bounds _ _ _ hu
        simp only []
        by_cases hc : u / 2 > maxSupportedValueCount
        · simp only [if_pos hc]
        · rw [if_neg hc, if_neg hc]
          by_cases hm : u % 2 = 1
          · rw [if_pos hm, if_pos hm]
            by_cases hlen : ((x :: xs).drop n).length < u / 2 * w
            · rw [if_pos hlen, if_pos hlen]
            · rw [if_neg hlen, if_neg hlen]
              apply ih
              · simp only [List.length_drop, List.length_cons] at *
                omega
              · simp only [List.length_drop, List.length_cons] at *
                omega
          · rw [if_neg hm, if_neg hm]
            by_cases hlen : ((x :: xs).drop n).length < byteCount w
            · rw [if_pos hlen, if_pos hlen]
            · rw [if_neg hlen, if_neg hlen]
              apply ih
              · simp only [List.length_drop, List.length_cons] at *
                omega
              · simp only [List.length_drop, List.length_cons] at *
                omega

theorem decodeBytesF_ne_panic (fuel : Nat) (dst src : List Nat) (w : Nat)
    (h : src.length < fuel) : decodeBytesF fuel dst src w ≠ .panic := by
  induction fuel generalizing dst src with
  | zero => omega
  | succ a ih =>
    cases src with
    | nil => simp [decodeBytesF]
    | cons x xs =>
      simp only [decodeBytesF]
      cases hu : uvarint (x :: xs) with
      | short => simp
      | overflow => simp
      | ok u n =>
        obtain ⟨hn1, hn2⟩ := uvarint_ok_bounds _ _ _ hu
        simp only []
        by_cases hc : u / 2 > maxSupportedValueCount
        · simp [hc]
        · rw [if_neg hc]
          by_cases hm : u % 2 = 1
          · rw [if_pos hm]
            by_cases hlen : ((x :: xs).drop n).length < byteCount (8 * (u / 2) * w)
            · rw [if_pos hlen]
              simp
            · rw [if_neg hlen]
              apply ih
              simp only [List.length_drop, List.length_cons] at *
              omega
          · rw [if_neg hm]
            by_cases hv : w ≠ 0 ∧ ((x :: xs).drop n).length < 1
            · rw [if_pos hv]
              simp
            · rw [if_neg hv]
              have hs' : (if w = 0 then (x :: xs).drop n else ((x :: xs).drop n).tail).length
                  ≤ xs.length + 1 - n := by
                split
                · simp
                · simp only [List.length_tail, List.length_drop, List.length_cons]
                  omega
              apply ih
              simp only [List.length_cons] at h
              omega

theorem decodeBitsF_ne_panic (fuel : Nat) (dst src : List Nat)
    (h : src.length < fuel) : decodeBitsF fuel dst src ≠ .panic := by
  induction fuel generalizing dst src with
  | zero => omega
  | succ a ih =>
    cases src with
    | nil => simp [decodeBitsF]
    | cons x xs =>
      simp only [decodeBitsF]
      cases hu : uvarint (x :: xs) with
      | short => simp
      | overflow => simp
      | ok u n =>
        obtain ⟨hn1, hn2⟩ := uvarint_ok_bounds _ _ _ hu
        simp only []
        by_cases hc : u / 2 > maxSupportedValueCount
        · simp [hc]
        · rw [if_neg hc]
          by_cases hm : u % 2 = 1
          · rw [if_pos hm]
            by_cases hlen : ((x :: xs).drop n).length < u / 2
            · rw [if_pos hlen]
              simp
            · rw [if_neg hlen]
              apply ih
              simp only [List.length_drop, List.length_cons] at *
              omega
          · rw [if_neg hm]
            apply ih
            simp only [List.length_tail, List.length_drop, List.length_cons] at *
            omega

/-- One-step unfolding of the `decodeBytes` loop on a non-empty input. -/
theorem decodeBytesF_succ_cons (fuel : Nat) (dst : List Nat) (x : Nat) (xs : List Nat)
    (w : Nat) :
    decodeBytesF (fuel + 1) dst (x :: xs) w =
      match uvarint (x :: xs) with
      | .short => .err dst .truncatedHeader
      | .overflow => .err dst .headerOverflow
      | .ok u n =>
        let s := (x :: xs).drop n
        let count := u / 2
        if count > maxSupportedValueCount then .err dst .countTooLarge
        else if u % 2 = 1 then
          let c8 := 8 * count
          let need := byteCount (c8 * w)
          if s.length < need then .err dst .truncatedBody
          else decodeBytesF fuel (dst ++ unpack w c8 (s.take need)) (s.drop need) w
        else
          if w ≠ 0 ∧ s.length < 1 then .err dst .truncatedBody
          else
            let word := if w = 0 then 0 else s.headD 0
            let s' := if w = 0 then s else s.tail
            decodeBytesF fuel (dst ++ List.replicate count word) s' w := rfl

/-- One-step unfolding of the `decodeInt32` loop on a non-empty input. -/
theorem decodeInt32F_succ_cons (fuel : Nat) (dst : List Nat) (x : Nat) (xs : List Nat)
    (w : Nat) :
    decodeInt32F (fuel + 1) dst (x :: xs) w =
      match uvarint (x :: xs) with
      | .short => .err dst .truncatedHeader
      | .overflow => .err dst .headerOverflow
      | .ok u n =>
        let s := (x :: xs).drop n
        let count := u / 2
        if count > maxSupportedValueCount then .err dst .countTooLarge
        else if u % 2 = 1 then
          let length := count * w
          if s.length < length then .panic
          else decodeInt32F fuel (dst ++ unpack w (8 * count) (s.take length)) (s.drop length) w
        else
          let need := byteCount w
          if s.length < need then .err dst .truncatedBody
          else decodeInt32F fuel (dst ++ List.replicate count (leToNat (s.take need)))
            (s.drop need) w := rfl

/-- One-step unfolding of the `decodeBits` loop on a non-empty input. -/
theorem decodeBitsF_succ_cons (fuel : Nat) (dst : List Nat) (x : Nat) (xs : List Nat) :
    decodeBitsF (fuel + 1) dst (x :: xs) =
      match uvarint (x :: xs) with
      | .short => .err dst .truncatedHeader
      | .overflow => .err dst .headerOverflow
      | .ok u n =>
        let s := (x :: xs).drop n
        let count := u / 2
        if count > maxSupportedValueCount then .err dst .countTooLarge
        else if u % 2 = 1 then
          if s.length < count then .err dst .truncatedBody
          else decodeBitsF fuel (dst ++ s.take count) (s.drop count)
        else
          decodeBitsF fuel (dst ++ List.replicate (byteCount count) (s.headD 0)) s.tail := rfl

/-- The `decodeBytes` loop at its canonical fuel. -/
def decodeBytesLoop (dst src : List Nat) (w : Nat) : DecRes :=
  decodeBytesF (src.length + 1) dst src w

/-- The `decodeInt32` loop at its canonical fuel. -/
def decodeInt32Loop (dst src : List Nat) (w : Nat) : DecRes :=
  decodeInt32F (src.length + 1) dst src w

theorem decodeBytes_eq_loop (dst src : List Nat) (w : Nat) (hw : w ≤ 8) :
    decodeBytes dst src w = decodeBytesLoop dst src w := by
  simp [decodeBytes, decodeBytesLoop, Nat.not_lt.mpr hw]

theorem decodeInt32_eq_loop (dst src : List Nat) (w : Nat) (hw : w ≤ 32) :
    decodeInt32 dst src w = decodeInt32Loop dst src w := by
  simp [decodeInt32, decodeInt32Loop, Nat.not_lt.mpr hw]

@[simp] theorem decodeBytesLoop_nil (dst : List Nat) (w : Nat) :
    decodeBytesLoop dst [] w = .ok dst := rfl

@[simp] theorem decodeInt32Loop_nil (dst : List Nat) (w : Nat) :
    decodeInt32Loop dst [] w = .ok dst := rfl

theorem flatten_replicate_replicate (n k x : Nat) :
    (List.replicate n (List.replicate k x)).flatten = List.replicate (n * k) x := by
  induction n with
  | zero => simp
  | succ m ih =>
    simp only [List.replicate_succ, List.flatten_cons, ih]
    rw [← List.replicate_add]
    congr 1
    ring

theorem flatten_length_const (l : List (List Nat)) (k : Nat)
    (h : ∀ c ∈ l, c.length = k) : l.flatten.length = l.length * k := by
  induction l with
  | nil => simp
  | cons c cs ih =>
    simp only [List.flatten_cons, List.length_append, List.length_cons]
    rw [h c (List.mem_cons_self c cs), ih (fun d hd => h d (List.mem_cons_of_mem c hd))]
    ring

theorem mem_flatten_take {α : Type} (l : List (List α)) (m : Nat) (v : α)
    (h : v ∈ (l.take m).flatten) : ∃ c ∈ l, v ∈ c := by
  obtain ⟨c, hc, hv⟩ := List.mem_flatten.mp h
  exact ⟨c, List.mem_of_mem_take hc, hv⟩

/-- One run-length run, width 1..8: consume the header and the value byte,
append `count` copies of the value. -/
theorem decodeBytesLoop_rle (dst rest : List Nat) (w c v : Nat)
    (hw : 1 ≤ w) (hc : c ≤ maxSupportedValueCount) (hc64 : 2 * c < 2 ^ 64) :
    decodeBytesLoop dst (putUvarint (2 * c) ++ v :: rest) w
      = decodeBytesLoop (dst ++ List.replicate c v) rest w := by
  have hplen : 1 ≤ (putUvarint (2 * c)).length := by
    cases h : putUvarint (2 * c) with
    | nil => exact absurd h (putUvarint_ne_nil _)
    | cons a as => simp
  have hu : uvarint (putUvarint (2 * c) ++ v :: rest) = .ok (2 * c) (putUvarint (2 * c)).length :=
    uvarint_putUvarint _ _ hc64
  unfold decodeBytesLoop
  obtain ⟨y, ys, hsrc⟩ : ∃ y ys, putUvarint (2 * c) ++ v :: rest = y :: ys := by
    cases h : putUvarint (2 * c) ++ v :: rest with
    | nil => exact absurd (List.append_eq_nil.mp h).1 (putUvarint_ne_nil _)
    | cons y ys => exact ⟨y, ys, rfl⟩
  rw [hsrc, decodeBytesF_succ_cons, ← hsrc]
  simp only [hu]
  rw [List.drop_left]
  rw [show 2 * c / 2 = c from by omega]
  rw [if_neg (by omega : ¬ c > maxSupportedValueCount)]
  rw [if_neg (by omega : ¬ (2 * c % 2 = 1))]
  have hw0 : ¬ w = 0 := by omega
  rw [if_neg (by simp [hw0] : ¬ (w ≠ 0 ∧ (v :: rest).length < 1))]
  rw [if_neg hw0, if_neg hw0]
  simp only [List.headD_cons, List.tail_cons]
  apply decodeBytesF_congr
  · simp only [List.length_append, List.length_cons]
    omega
  · omega

/-- One run-length run, width 0: no value byte; append `count` zeros. -/
theorem decodeBytesLoop_rle0 (dst rest : List Nat) (c : Nat)
    (hc : c ≤ maxSupportedValueCount) (hc64 : 2 * c < 2 ^ 64) :
    decodeBytesLoop dst (putUvarint (2 * c) ++ rest) 0
      = decodeBytesLoop (dst ++ List.replicate c 0) rest 0 := by
  have hplen : 1 ≤ (putUvarint (2 * c)).length := by
    cases h : putUvarint (2 * c) with
    | nil => exact absurd h (putUvarint_ne_nil _)
    | cons a as => simp
  have hu : uvarint (putUvarint (2 * c) ++ rest) = .ok (2 * c) (putUvarint (2 * c)).length :=
    uvarint_putUvarint _ _ hc64
  unfold decodeBytesLoop
  obtain ⟨y, ys, hsrc⟩ : ∃ y ys, putUvarint (2 * c) ++ rest = y :: ys := by
    cases h : putUvarint (2 * c) ++ rest with
    | nil => exact absurd (List.append_eq_nil.mp h).1 (putUvarint_ne_nil _)
    | cons y ys => exact ⟨y, ys, rfl⟩
  rw [hsrc, decodeBytesF_succ_cons, ← hsrc]
  simp only [hu]
  rw [List.drop_left]
  rw [show 2 * c / 2 = c from by omega]
  rw [if_neg (by omega : ¬ c > maxSupportedValueCount)]
  rw [if_neg (by omega : ¬ (2 * c % 2 = 1))]
  rw [if_neg (by simp : ¬ ((0 : Nat) ≠ 0 ∧ rest.length < 1))]
  simp only [if_true, eq_self_iff_true]
  apply decodeBytesF_congr
  · simp only [List.length_append]
    omega
  · omega

/-- One bit-packed run of `k` groups of 8 values, each value `< 2 ^ w`:
consume the header and the packed payload, append the values. -/
theorem decodeBytesLoop_bitpacked (dst rest : List Nat) (w k : Nat) (vals : List Nat)
    (hlen : vals.length = 8 * k) (hv : ∀ v ∈ vals, v < 2 ^ w)
    (hc : k ≤ maxSupportedValueCount) (hc64 : 2 * k + 1 < 2 ^ 64) :
    decodeBytesLoop dst (putUvarint (2 * k + 1) ++ pack w vals ++ rest) w
      = decodeBytesLoop (dst ++ vals) rest w := by
  have hplen : 1 ≤ (putUvarint (2 * k + 1)).length := by
    cases h : putUvarint (2 * k + 1) with
    | nil => exact absurd h (putUvarint_ne_nil _)
    | cons a as => simp
  have hu : uvarint (putUvarint (2 * k + 1) ++ (pack w vals ++ rest))
      = .ok (2 * k + 1) (putUvarint (2 * k + 1)).length :=
    uvarint_putUvarint _ _ hc64
  unfold decodeBytesLoop
  obtain ⟨y, ys, hsrc⟩ : ∃ y ys, putUvarint (2 * k + 1) ++ pack w vals ++ rest = y :: ys := by
    cases h : putUvarint (2 * k + 1) ++ pack w vals ++ rest with
    | nil =>
      rw [List.append_assoc] at h
      exact absurd (List.append_eq_nil.mp h).1 (putUvarint_ne_nil _)
    | cons y ys => exact ⟨y, ys, rfl⟩
  rw [hsrc, decodeBytesF_succ_cons, ← hsrc, List.append_assoc]
  simp only [hu]
  rw [List.drop_left]
  rw [show (2 * k + 1) / 2 = k from by omega]
  rw [if_neg (by omega : ¬ k > maxSupportedValueCount)]
  rw [if_pos (by omega : (2 * k + 1) % 2 = 1)]
  have hpk : (pack w vals).length = byteCount (8 * k * w) := by
    rw [pack_length, hlen]
  rw [if_neg (by simp [hpk] : ¬ ((pack w vals ++ rest).length < byteCount (8 * k * w)))]
  rw [← hpk, List.take_left, List.drop_left]
  have hunp : unpack w (8 * k) (pack w vals) = vals := by
    rw [← hlen]
    exact unpack_pack w vals hv
  rw [hunp]
  apply decodeBytesF_congr
  · simp only [List.length_append]
    omega
  · omega

/-- One run-length run of the int32 decoder: consume the header and
`ceil(w/8)` little-endian value bytes, append `count` copies of the value. -/
theorem decodeInt32Loop_rle (dst rest : List Nat) (w c v : Nat)
    (hv : v < 2 ^ w) (hc : c ≤ maxSupportedValueCount) (hc64 : 2 * c < 2 ^ 64) :
    decodeInt32Loop dst (putUvarint (2 * c) ++ natToLE (byteCount w) v ++ rest) w
      = decodeInt32Loop (dst ++ List.replicate c v) rest w := by
  have hplen : 1 ≤ (putUvarint (2 * c)).length := by
    cases h : putUvarint (2 * c) with
    | nil => exact absurd h (putUvarint_ne_nil _)
    | cons a as => simp
  have hu : uvarint (putUvarint (2 * c) ++ (natToLE (byteCount w) v ++ rest))
      = .ok (2 * c) (putUvarint (2 * c)).length :=
    uvarint_putUvarint _ _ hc64
  unfold decodeInt32Loop
  obtain ⟨y, ys, hsrc⟩ : ∃ y ys, putUvarint (2 * c) ++ natToLE (byteCount w) v ++ rest
      = y :: ys := by
    cases h : putUvarint (2 * c) ++ natToLE (byteCount w) v ++ rest with
    | nil =>
      rw [List.append_assoc] at h
      exact absurd (List.append_eq_nil.mp h).1 (putUvarint_ne_nil _)
    | cons y ys => exact ⟨y, ys, rfl⟩
  rw [hsrc, decodeInt32F_succ_cons, ← hsrc, List.append_assoc]
  simp only [hu]
  rw [List.drop_left]
  rw [show 2 * c / 2 = c from by omega]
  rw [if_neg (by omega : ¬ c > maxSupportedValueCount)]
  rw [if_neg (by omega : ¬ (2 * c % 2 = 1))]
  rw [if_neg (by simp : ¬ ((natToLE (byteCount w) v ++ rest).length < byteCount w))]
  rw [List.take_left' (natToLE_length _ _), List.drop_left' (natToLE_length _ _)]
  have hval : leToNat (natToLE (byteCount w) v) = v := by
    apply leToNat_natToLE
    calc v < 2 ^ w := hv
      _ ≤ 2 ^ (8 * byteCount w) := by
          apply Nat.pow_le_pow_right (by omega)
          unfold byteCount
          omega
  rw [hval]
  apply decodeInt32F_congr
  · simp only [List.length_append]
    omega
  · omega

/-- One bit-packed run of the int32 decoder: consume the header and the
`k·w`-byte payload, append the `8·k` values. -/
theorem decodeInt32Loop_bitpacked (dst rest : List Nat) (w k : Nat) (vals : List Nat)
    (hlen : vals.length = 8 * k) (hv : ∀ v ∈ vals, v < 2 ^ w)
    (hc : k ≤ maxSupportedValueCount) (hc64 : 2 * k + 1 < 2 ^ 64) :
    decodeInt32Loop dst (putUvarint (2 * k + 1) ++ pack w vals ++ rest) w
      = decodeInt32Loop (dst ++ vals) rest w := by
  have hplen : 1 ≤ (putUvarint (2 * k + 1)).length := by
    cases h : putUvarint (2 * k + 1) with
    | nil => exact absurd h (putUvarint_ne_nil _)
    | cons a as => simp
  have hu : uvarint (putUvarint (2 * k + 1) ++ (pack w vals ++ rest))
      = .ok (2 * k + 1) (putUvarint (2 * k + 1)).length :=
    uvarint_putUvarint _ _ hc64
  unfold decodeInt32Loop
  obtain ⟨y, ys, hsrc⟩ : ∃ y ys, putUvarint (2 * k + 1) ++ pack w vals ++ rest = y :: ys := by
    cases h : putUvarint (2 * k + 1) ++ pack w vals ++ rest with
    | nil =>
      rw [List.append_assoc] at h
      exact absurd (List.append_eq_nil.mp h).1 (putUvarint_ne_nil _)
    | cons y ys => exact ⟨y, ys, rfl⟩
  rw [hsrc, decodeInt32F_succ_cons, ← hsrc, List.append_assoc]
  simp only [hu]
  rw [List.drop_left]
  rw [show (2 * k + 1) / 2 = k from by omega]
  rw [if_neg (by omega : ¬ k > maxSupportedValueCount)]
  rw [if_pos (by omega : (2 * k + 1) % 2 = 1)]
  have hpk : (pack w vals).length = k * w := by
    rw [pack_length, hlen, show 8 * k * w = 8 * (k * w) from by ring]
    unfold byteCount
    omega
  rw [if_neg (by simp [hpk] : ¬ ((pack w vals ++ rest).length < k * w))]
  rw [List.take_left' hpk, List.drop_left' hpk]
  have hunp : unpack w (8 * k) (pack w vals) = vals := by
    rw [← hlen]
    exact unpack_pack w vals hv
  rw [hunp]
  apply decodeInt32F_congr
  · simp only [List.length_append]
    omega
  · omega

theorem fullChunks8_chunk_mem (s : List Nat) :
    ∀ c ∈ fullChunks8 s, ∀ v ∈ c, v ∈ s := by
  generalize hn : s.length = n
  induction n using Nat.strong_induction_on generalizing s with
  | _ n ih =>
    subst hn
    rw [fullChunks8_eq]
    by_cases hs : s.length < 8
    · simp [hs]
    · simp only [hs, if_false]
      intro c hc v hv
      rcases List.mem_cons.mp hc with h | h
      · subst h
        exact List.mem_of_mem_take hv
      · exact List.mem_of_mem_drop (ih (s.drop 8).length (by simp; omega) (s.drop 8) rfl c h v hv)

/-- Decoding the runs emitted by the groups loop of `encodeBytes` appends the
groups' values. -/
theorem decodeBytesLoop_groups (w : Nat) (hw1 : 1 ≤ w) (ws : List (List Nat)) :
    ∀ (fuelE : Nat) (dst suffix : List Nat),
      ws.length ≤ fuelE →
      (∀ c ∈ ws, c.length = 8) →
      (∀ c ∈ ws, ∀ v ∈ c, v < 2 ^ w) →
      8 * ws.length ≤ maxSupportedValueCount →
      decodeBytesLoop dst (encodeBytesGroupsF fuelE ws w ++ suffix) w
        = decodeBytesLoop (dst ++ ws.flatten) suffix w := by
  generalize hn : ws.length = n
  induction n using Nat.strong_induction_on generalizing ws with
  | _ n ih =>
    subst hn
    intro fuelE dst suffix hfe hcl hcv hcap
    match ws, fuelE with
    | [], 0 =>
      simp [encodeBytesGroupsF]
    | [], _ + 1 =>
      simp [encodeBytesGroupsF]
    | wd :: rest, fuelE + 1 =>
      simp only [encodeBytesGroupsF]
      simp only [List.length_cons] at hfe hcap
      by_cases hconst : wd = List.replicate 8 (wd.headD 0)
      · rw [if_pos hconst]
        have hkle : countLeadEq wd rest ≤ rest.length := countLeadEq_le wd rest
        set k := 1 + countLeadEq wd rest with hk
        have hc8 : 8 * k ≤ maxSupportedValueCount := by omega
        have hassoc : putUvarint (2 * (8 * k)) ++ [wd.headD 0] ++
              encodeBytesGroupsF fuelE (rest.drop (k - 1)) w ++ suffix
            = putUvarint (2 * (8 * k)) ++ (wd.headD 0 ::
              (encodeBytesGroupsF fuelE (rest.drop (k - 1)) w ++ suffix)) := by
          simp [List.append_assoc]
        rw [hassoc, decodeBytesLoop_rle dst _ w (8 * k) (wd.headD 0) hw1 hc8
          (by have hmax : maxSupportedValueCount = 16 * 1024 * 1024 := rfl; omega)]
        have hdl : (rest.drop (k - 1)).length = rest.length - (k - 1) := by simp
        have hrec := ih (rest.drop (k - 1)).length
          (by simp only [hdl, List.length_cons]; omega)
          (rest.drop (k - 1)) rfl fuelE
          (dst ++ List.replicate (8 * k) (wd.headD 0)) suffix
          (by simp only [hdl]; omega)
          (fun c hc => hcl c (List.mem_cons_of_mem wd (List.mem_of_mem_drop hc)))
          (fun c hc => hcv c (List.mem_cons_of_mem wd (List.mem_of_mem_drop hc)))
          (by simp only [hdl]; omega)
        rw [hrec]
        have hflat : (wd :: rest).flatten
            = List.replicate (8 * k) (wd.headD 0) ++ (rest.drop (k - 1)).flatten := by
          have hrest : rest = rest.take (k - 1) ++ rest.drop (k - 1) :=
            (List.take_append_drop (k - 1) rest).symm
          have htk : rest.take (k - 1) = List.replicate (k - 1) wd := by
            have h0 := countLeadEq_take wd rest
            rw [hk]
            simpa using h0
          conv_lhs => rw [hrest]
          simp only [List.flatten_cons, List.flatten_append]
          rw [htk, hconst, flatten_replicate_replicate, ← List.append_assoc,
            ← List.replicate_add]
          congr 3
          omega
        rw [hflat, List.append_assoc]
      · rw [if_neg hconst]
        have hmle : bpExtentBytes wd rest ≤ rest.length := bpExtentBytes_le wd rest
        set m := 1 + bpExtentBytes wd rest with hm
        have hmcap : m ≤ maxSupportedValueCount := by omega
        have hvals_len : (((wd :: rest).take m).flatten).length = 8 * m := by
          rw [flatten_length_const _ 8
            (fun c hc => hcl c (List.mem_of_mem_take hc))]
          rw [List.length_take]
          simp only [List.length_cons]
          omega
        have hvals_lt : ∀ v ∈ ((wd :: rest).take m).flatten, v < 2 ^ w := by
          intro v hv
          obtain ⟨c, hc, hvc⟩ := mem_flatten_take _ _ _ hv
          exact hcv c hc v hvc
        rw [List.append_assoc, decodeBytesLoop_bitpacked dst _ w m _ hvals_len hvals_lt
          hmcap (by have hmax : maxSupportedValueCount = 16 * 1024 * 1024 := rfl; omega)]
        have hdl : (rest.drop (m - 1)).length = rest.length - (m - 1) := by simp
        have hrec := ih (rest.drop (m - 1)).length
          (by simp only [hdl, List.length_cons]; omega)
          (rest.drop (m - 1)) rfl fuelE
          (dst ++ ((wd :: rest).take m).flatten) suffix
          (by simp only [hdl]; omega)
          (fun c hc => hcl c (List.mem_cons_of_mem wd (List.mem_of_mem_drop hc)))
          (fun c hc => hcv c (List.mem_cons_of_mem wd (List.mem_of_mem_drop hc)))
          (by simp only [hdl]; omega)
        rw [hrec]
        have hsplit : (wd :: rest) = (wd :: rest).take m ++ (wd :: rest).drop m :=
          (List.take_append_drop m (wd :: rest)).symm
        have hdrop : (wd :: rest).drop m = rest.drop (m - 1) := by
          rw [hm, Nat.add_comm 1 (bpExtentBytes wd rest)]
          simp
        have hflat : (wd :: rest).flatten
            = ((wd :: rest).take m).flatten ++ (rest.drop (m - 1)).flatten := by
          conv_lhs => rw [hsplit]
          rw [List.flatten_append, hdrop]
        rw [hflat, List.append_assoc]

/-- Decoding the runs emitted by the byte tail loop appends the tail bytes. -/
theorem decodeBytesLoop_tail (w : Nat) (hw1 : 1 ≤ w) (s : List Nat) :
    ∀ (fuelE : Nat) (dst suffix : List Nat),
      s.length ≤ fuelE →
      s.length ≤ maxSupportedValueCount →
      decodeBytesLoop dst (encodeRleTailF fuelE s ++ suffix) w
        = decodeBytesLoop (dst ++ s) suffix w := by
  generalize hn : s.length = n
  induction n using Nat.strong_induction_on generalizing s with
  | _ n ih =>
    subst hn
    intro fuelE dst suffix hfe hcap
    match s, fuelE with
    | [], 0 => simp [encodeRleTailF]
    | [], _ + 1 => simp [encodeRleTailF]
    | x :: rest, fuelE + 1 =>
      simp only [encodeRleTailF]
      simp only [List.length_cons] at hfe hcap
      have hkle : countLeadEq x rest ≤ rest.length := countLeadEq_le x rest
      set k := 1 + countLeadEq x rest with hk
      have hkcap : k ≤ maxSupportedValueCount := by omega
      have hassoc : putUvarint (2 * k) ++ [x] ++ encodeRleTailF fuelE (rest.drop (k - 1))
            ++ suffix
          = putUvarint (2 * k) ++ (x :: (encodeRleTailF fuelE (rest.drop (k - 1))
            ++ suffix)) := by
        simp [List.append_assoc]
      rw [hassoc, decodeBytesLoop_rle dst _ w k x hw1 hkcap
        (by have hmax : maxSupportedValueCount = 16 * 1024 * 1024 := rfl; omega)]
      have hdl : (rest.drop (k - 1)).length = rest.length - (k - 1) := by simp
      have hrec := ih (rest.drop (k - 1)).length
        (by simp only [hdl, List.length_cons]; omega)
        (rest.drop (k - 1)) rfl fuelE (dst ++ List.replicate k x) suffix
        (by simp only [hdl]; omega) (by simp only [hdl]; omega)
      rw [hrec]
      have hrest : rest = rest.take (k - 1) ++ rest.drop (k - 1) :=
        (List.take_append_drop (k - 1) rest).symm
      have htk : rest.take (k - 1) = List.replicate (k - 1) x := by
        have h0 := countLeadEq_take x rest
        rw [hk]
        simpa using h0
      have hflat : x :: rest = List.replicate k x ++ rest.drop (k - 1) := by
        conv_lhs => rw [hrest]
        rw [htk, show (x :: (List.replicate (k - 1) x ++ rest.drop (k - 1)))
          = (x :: List.replicate (k - 1) x) ++ rest.drop (k - 1) from rfl,
          ← List.replicate_succ]
        congr 2
        omega
      rw [hflat, List.append_assoc]

/-- Decoding the runs emitted by the groups loop of `encodeInt32` appends the
groups' values. -/
theorem decodeInt32Loop_groups (w : Nat) (ws : List (List Nat)) :
    ∀ (fuelE : Nat) (dst suffix : List Nat),
      ws.length ≤ fuelE →
      (∀ c ∈ ws, c.length = 8) →
      (∀ c ∈ ws, ∀ v ∈ c, v < 2 ^ w) →
      8 * ws.length ≤ maxSupportedValueCount →
      decodeInt32Loop dst (encodeInt32GroupsF fuelE ws w ++ suffix) w
        = decodeInt32Loop (dst ++ ws.flatten) suffix w := by
  generalize hn : ws.length = n
  induction n using Nat.strong_induction_on generalizing ws with
  | _ n ih =>
    subst hn
    intro fuelE dst suffix hfe hcl hcv hcap
    match ws, fuelE with
    | [], 0 =>
      simp [encodeInt32GroupsF]
    | [], _ + 1 =>
      simp [encodeInt32GroupsF]
    | wd :: rest, fuelE + 1 =>
      simp only [encodeInt32GroupsF]
      simp only [List.length_cons] at hfe hcap
      have hwd8 : wd.length = 8 := hcl wd (List.mem_cons_self wd rest)
      have hhd : wd.headD 0 ∈ wd := by
        cases wd with
        | nil => simp at hwd8
        | cons a as => simp
      have hhdlt : wd.headD 0 < 2 ^ w :=
        hcv wd (List.mem_cons_self wd rest) _ hhd
      by_cases hconst : wd = List.replicate 8 (wd.headD 0)
      · rw [if_pos hconst]
        have hkle : countLeadEq wd rest ≤ rest.length := countLeadEq_le wd rest
        set k := 1 + countLeadEq wd rest with hk
        have hc8 : 8 * k ≤ maxSupportedValueCount := by omega
        rw [List.append_assoc (putUvarint (2 * (8 * k)) ++ natToLE (byteCount w) (wd.headD 0))]
        rw [decodeInt32Loop_rle dst _ w (8 * k) (wd.headD 0) hhdlt hc8
          (by have hmax : maxSupportedValueCount = 16 * 1024 * 1024 := rfl; omega)]
        have hdl : (rest.drop (k - 1)).length = rest.length - (k - 1) := by simp
        have hrec := ih (rest.drop (k - 1)).length
          (by simp only [hdl, List.length_cons]; omega)
          (rest.drop (k - 1)) rfl fuelE
          (dst ++ List.replicate (8 * k) (wd.headD 0)) suffix
          (by simp only [hdl]; omega)
          (fun c hc => hcl c (List.mem_cons_of_mem wd (List.mem_of_mem_drop hc)))
          (fun c hc => hcv c (List.mem_cons_of_mem wd (List.mem_of_mem_drop hc)))
          (by simp only [hdl]; omega)
        rw [hrec]
        have hflat : (wd :: rest).flatten
            = List.replicate (8 * k) (wd.headD 0) ++ (rest.drop (k - 1)).flatten := by
          have hrest : rest = rest.take (k - 1) ++ rest.drop (k - 1) :=
            (List.take_append_drop (k - 1) rest).symm
          have htk : rest.take (k - 1) = List.replicate (k - 1) wd := by
            have h0 := countLeadEq_take wd rest
            rw [hk]
            simpa using h0
          conv_lhs => rw [hrest]
          simp only [List.flatten_cons, List.flatten_append]
          rw [htk, hconst, flatten_replicate_replicate, ← List.append_assoc,
            ← List.replicate_add]
          congr 3
          omega
        rw [hflat, List.append_assoc]
      · rw [if_neg hconst]
        have hmle : bpExtentInt32 rest ≤ rest.length := bpExtentInt32_le rest
        set m := 1 + bpExtentInt32 rest with hm
        have hmcap : m ≤ maxSupportedValueCount := by omega
        have hvals_len : (((wd :: rest).take m).flatten).length = 8 * m := by
          rw [flatten_length_const _ 8
            (fun c hc => hcl c (List.mem_of_mem_take hc))]
          rw [List.length_take]
          simp only [List.length_cons]
          omega
        have hvals_lt : ∀ v ∈ ((wd :: rest).take m).flatten, v < 2 ^ w := by
          intro v hv
          obtain ⟨c, hc, hvc⟩ := mem_flatten_take _ _ _ hv
          exact hcv c hc v hvc
        rw [List.append_assoc, decodeInt32Loop_bitpacked dst _ w m _ hvals_len hvals_lt
          hmcap (by have hmax : maxSupportedValueCount = 16 * 1024 * 1024 := rfl; omega)]
        have hdl : (rest.drop (m - 1)).length = rest.length - (m - 1) := by simp
        have hrec := ih (rest.drop (m - 1)).length
          (by simp only [hdl, List.length_cons]; omega)
          (rest.drop (m - 1)) rfl fuelE
          (dst ++ ((wd :: rest).take m).flatten) suffix
          (by simp only [hdl]; omega)
          (fun c hc => hcl c (List.mem_cons_of_mem wd (List.mem_of_mem_drop hc)))
          (fun c hc => hcv c (List.mem_cons_of_mem wd (List.mem_of_mem_drop hc)))
          (by simp only [hdl]; omega)
        rw [hrec]
        have hsplit : (wd :: rest) = (wd :: rest).take m ++ (wd :: rest).drop m :=
          (List.take_append_drop m (wd :: rest)).symm
        have hdrop : (wd :: rest).drop m = rest.drop (m - 1) := by
          rw [hm, Nat.add_comm 1 (bpExtentInt32 rest)]
          simp
        have hflat : (wd :: rest).flatten
            = ((wd :: rest).take m).flatten ++ (rest.drop (m - 1)).flatten := by
          conv_lhs => rw [hsplit]
          rw [List.flatten_append, hdrop]
        rw [hflat, List.append_assoc]

/-- Decoding the runs emitted by the int32 tail loop appends the tail values. -/
theorem decodeInt32Loop_tail (w : Nat) (s : List Nat) :
    ∀ (fuelE : Nat) (dst suffix : List Nat),
      s.length ≤ fuelE →
      s.length ≤ maxSupportedValueCount →
      (∀ v ∈ s, v < 2 ^ w) →
      decodeInt32Loop dst (encodeRleTailInt32F fuelE s w ++ suffix) w
        = decodeInt32Loop (dst ++ s) suffix w := by
  generalize hn : s.length = n
  induction n using Nat.strong_induction_on generalizing s with
  | _ n ih =>
    subst hn
    intro fuelE dst suffix hfe hcap hv
    match s, fuelE with
    | [], 0 => simp [encodeRleTailInt32F]
    | [], _ + 1 => simp [encodeRleTailInt32F]
    | x :: rest, fuelE + 1 =>
      simp only [encodeRleTailInt32F]
      simp only [List.length_cons] at hfe hcap
      have hkle : countLeadEq x rest ≤ rest.length := countLeadEq_le x rest
      set k := 1 + countLeadEq x rest with hk
      have hkcap : k ≤ maxSupportedValueCount := by omega
      rw [List.append_assoc (putUvarint (2 * k) ++ natToLE (byteCount w) x)]
      rw [decodeInt32Loop_rle dst _ w k x (hv x (List.mem_cons_self x rest)) hkcap
        (by have hmax : maxSupportedValueCount = 16 * 1024 * 1024 := rfl; omega)]
      have hdl : (rest.drop (k - 1)).length = rest.length - (k - 1) := by simp
      have hrec := ih (rest.drop (k - 1)).length
        (by simp only [hdl, List.length_cons]; omega)
        (rest.drop (k - 1)) rfl fuelE (dst ++ List.replicate k x) suffix
        (by simp only [hdl]; omega) (by simp only [hdl]; omega)
        (fun v hvm => hv v (List.mem_cons_of_mem x (List.mem_of_mem_drop hvm)))
      rw [hrec]
      have hrest : rest = rest.take (k - 1) ++ rest.drop (k - 1) :=
        (List.take_append_drop (k - 1) rest).symm
      have htk : rest.take (k - 1) = List.replicate (k - 1) x := by
        have h0 := countLeadEq_take x rest
        rw [hk]
        simpa using h0
      have hflat : x :: rest = List.replicate k x ++ rest.drop (k - 1) := by
        conv_lhs => rw [hrest]
        rw [htk, show (x :: (List.replicate (k - 1) x ++ rest.drop (k - 1)))
          = (x :: List.replicate (k - 1) x) ++ rest.drop (k - 1) from rfl,
          ← List.replicate_succ]
        congr 2
        omega
      rw [hflat, List.append_assoc]

/-- Round-trip of `encodeBytes` / `decodeBytes` for inputs of at most
`maxSupportedValueCount` values, each fitting the declared width. -/
theorem decodeBytes_encodeBytes (src : List Nat) (w : Nat) (hw : w ≤ 8)
    (hv : ∀ v ∈ src, v < 2 ^ w) (hlen : src.length ≤ maxSupportedValueCount) :
    ∃ e, encodeBytes src w = .ok e ∧ decodeBytes [] e w = .ok src := by
  by_cases hw0 : w = 0
  · subst hw0
    have hz : ∀ v ∈ src, v = 0 := by
      intro v hvm
      have := hv v hvm
      simpa using Nat.lt_one_iff.mp (by simpa using this)
    have hiz : isZero src = true := by
      unfold isZero
      rw [List.all_eq_true]
      intro v hvm
      simpa using hz v hvm
    refine ⟨putUvarint (2 * src.length), ?_, ?_⟩
    · simp [encodeBytes, hiz]
    · rw [decodeBytes_eq_loop _ _ _ (by omega)]
      have hstep := decodeBytesLoop_rle0 [] [] src.length hlen
        (by have hmax : maxSupportedValueCount = 16 * 1024 * 1024 := rfl; omega)
      rw [show putUvarint (2 * src.length) = putUvarint (2 * src.length) ++ ([] : List Nat)
        from (List.append_nil _).symm, hstep]
      have hrepl : List.replicate src.length 0 = src :=
        (List.eq_replicate_length.mpr hz).symm
      simp [hrepl]
  · have hw1 : 1 ≤ w := by omega
    refine ⟨encodeBytesGroupsF (src.length / 8 + 1) (fullChunks8 src) w ++
      encodeRleTailF (src.length + 1) (src.drop (8 * (src.length / 8))), ?_, ?_⟩
    · rw [encodeBytes, if_neg (by omega : ¬ w > 8), if_neg hw0]
    · rw [decodeBytes_eq_loop _ _ _ hw]
      have hchl := fullChunks8_chunk_length src
      have hgroups := decodeBytesLoop_groups w hw1 (fullChunks8 src) (src.length / 8 + 1)
        [] (encodeRleTailF (src.length + 1) (src.drop (8 * (src.length / 8))))
        (by rw [fullChunks8_length]; omega)
        hchl
        (fun c hc v hvc => hv v (fullChunks8_chunk_mem src c hc v hvc))
        (by rw [fullChunks8_length]; omega)
      rw [hgroups]
      have hdroplen : (src.drop (8 * (src.length / 8))).length ≤ src.length := by
        simp
      rw [List.nil_append]
      have htail := decodeBytesLoop_tail w hw1 (src.drop (8 * (src.length / 8)))
        (src.length + 1) ((fullChunks8 src).flatten) []
        (by simp only [List.length_drop]; omega) (by simp only [List.length_drop]; omega)
      rw [show encodeRleTailF (src.length + 1) (src.drop (8 * (src.length / 8)))
          = encodeRleTailF (src.length + 1) (src.drop (8 * (src.length / 8))) ++ []
        from (List.append_nil _).symm, htail]
      rw [decodeBytesLoop_nil]
      rw [fullChunks8_flatten, List.take_append_drop]

/-- Round-trip of `encodeInt32` / `decodeInt32` for inputs of at most
`maxSupportedValueCount` values, each fitting the declared width. -/
theorem decodeInt32_encodeInt32 (src : List Nat) (w : Nat) (hw : w ≤ 32)
    (hv : ∀ v ∈ src, v < 2 ^ w) (hlen : src.length ≤ maxSupportedValueCount) :
    ∃ e, encodeInt32 src w = .ok e ∧ decodeInt32 [] e w = .ok src := by
  by_cases hw0 : w = 0
  · subst hw0
    have hz : ∀ v ∈ src, v = 0 := by
      intro v hvm
      have := hv v hvm
      simpa using Nat.lt_one_iff.mp (by simpa using this)
    have hiz : isZero src = true := by
      unfold isZero
      rw [List.all_eq_true]
      intro v hvm
      simpa using hz v hvm
    refine ⟨putUvarint (2 * src.length), ?_, ?_⟩
    · simp [encodeInt32, hiz]
    · rw [decodeInt32_eq_loop _ _ _ (by omega)]
      have hstep := decodeInt32Loop_rle [] [] 0 src.length 0 (by simp) hlen
        (by have hmax : maxSupportedValueCount = 16 * 1024 * 1024 := rfl; omega)
      have h0 : natToLE (byteCount 0) 0 = [] := rfl
      rw [h0, List.append_nil, List.append_nil] at hstep
      rw [hstep]
      have hrepl : List.replicate src.length 0 = src :=
        (List.eq_replicate_length.mpr hz).symm
      simp [hrepl]
  · refine ⟨encodeInt32GroupsF (src.length / 8 + 1) (fullChunks8 src) w ++
      encodeRleTailInt32F (src.length + 1) (src.drop (8 * (src.length / 8))) w, ?_, ?_⟩
    · rw [encodeInt32, if_neg (by omega : ¬ w > 32), if_neg hw0]
    · rw [decodeInt32_eq_loop _ _ _ hw]
      have hchl := fullChunks8_chunk_length src
      have hgroups := decodeInt32Loop_groups w (fullChunks8 src) (src.length / 8 + 1)
        [] (encodeRleTailInt32F (src.length + 1) (src.drop (8 * (src.length / 8))) w)
        (by rw [fullChunks8_length]; omega)
        hchl
        (fun c hc v hvc => hv v (fullChunks8_chunk_mem src c hc v hvc))
        (by rw [fullChunks8_length]; omega)
      rw [hgroups]
      rw [List.nil_append]
      have htail := decodeInt32Loop_tail w (src.drop (8 * (src.length / 8)))
        (src.length + 1) ((fullChunks8 src).flatten) []
        (by simp only [List.length_drop]; omega) (by simp only [List.length_drop]; omega)
        (fun v hvm => hv v (List.mem_of_mem_drop hvm))
      rw [show encodeRleTailInt32F (src.length + 1) (src.drop (8 * (src.length / 8))) w
          = encodeRleTailInt32F (src.length + 1) (src.drop (8 * (src.length / 8))) w ++ []
        from (List.append_nil _).symm, htail]
      rw [decodeInt32Loop_nil]
      rw [fullChunks8_flatten, List.take_append_drop]

theorem isZero_replicate0 (n : Nat) : isZero (List.replicate n 0) = true := by
  unfold isZero
  rw [List.all_eq_true]
  intro v hv
  have := List.eq_of_mem_replicate hv
  simp [this]

/-- C1 (amended).  For every bit width `w` and every sequence of values below
`2 ^ w` whose length is at most `maxSupportedValueCount` (so that no emitted
run exceeds the decoder's count cap), decoding the encoding returns exactly
the input: the byte codec round-trips for `w ≤ 8` and the int32 codec for
`w ≤ 32`; the empty sequence is the `xs = []` instance. -/
theorem claim_C1_roundtrip (xs : List Nat) (w : Nat)
    (hlen : xs.length ≤ maxSupportedValueCount) (hv : ∀ v ∈ xs, v < 2 ^ w) :
    (w ≤ 8 → ∃ e, encodeBytes xs w = .ok e ∧ decodeBytes [] e w = .ok xs) ∧
    (w ≤ 32 → ∃ e, encodeInt32 xs w = .ok e ∧ decodeInt32 [] e w = .ok xs) :=
  ⟨fun hw => decodeBytes_encodeBytes xs w hw hv hlen,
   fun hw => decodeInt32_encodeInt32 xs w hw hv hlen⟩

/-- Witness for C1 at `xs = [1,0,1,0,1,0,1,0,1]`, `w = 1`. -/
theorem claim_C1_roundtrip_witness :
    ([1, 0, 1, 0, 1, 0, 1, 0, 1] : List Nat).length ≤ maxSupportedValueCount ∧
    (∀ v ∈ ([1, 0, 1, 0, 1, 0, 1, 0, 1] : List Nat), v < 2 ^ 1) ∧
    ((1 ≤ 8 → ∃ e, encodeBytes [1, 0, 1, 0, 1, 0, 1, 0, 1] 1 = .ok e ∧
        decodeBytes [] e 1 = .ok [1, 0, 1, 0, 1, 0, 1, 0, 1]) ∧
     (1 ≤ 32 → ∃ e, encodeInt32 [1, 0, 1, 0, 1, 0, 1, 0, 1] 1 = .ok e ∧
        decodeInt32 [] e 1 = .ok [1, 0, 1, 0, 1, 0, 1, 0, 1])) :=
  ⟨by decide, by decide,
   claim_C1_roundtrip [1, 0, 1, 0, 1, 0, 1, 0, 1] 1 (by decide) (by decide)⟩

/-- C1 counterexample.  A constant all-zero sequence one longer than the cap
encodes (at width 0) into a single run-length header whose count exceeds
`maxSupportedValueCount`, so decoding the encoding returns the count-too-large
error instead of the sequence: the round-trip fails for this input. -/
theorem claim_C1_counterexample :
    encodeBytes (List.replicate (2 ^ 24 + 1) 0) 0 = .ok [130, 128, 128, 16] ∧
    decodeBytes [] [130, 128, 128, 16] 0 = .err [] .countTooLarge := by
  constructor
  · have hz := isZero_replicate0 (2 ^ 24 + 1)
    rw [encodeBytes]
    rw [if_neg (by omega : ¬ (0 : Nat) > 8), if_pos rfl, if_pos hz]
    rw [show (2 : Nat) * (List.replicate (2 ^ 24 + 1) 0).length = 33554434 from by
      rw [List.length_replicate]; norm_num]
    rw [show putUvarint 33554434 = [130, 128, 128, 16] from by decide]
  · decide

/-- C4.  `decodeInt32` slices `src[i : i+length]` in its bit-packed branch
without a bounds check and panics on the 1-byte input `[0x03]` at width 8
(header: count 1, bit-packed, 8 payload bytes required, none present);
`decodeBytes` and `decodeBits` check every access and never panic. -/
theorem claim_C4_panic :
    decodeInt32 [] [3] 8 = .panic ∧
    (∀ (dst src : List Nat) (w : Nat), decodeBytes dst src w ≠ .panic) ∧
    (∀ dst src : List Nat, decodeBits dst src ≠ .panic) := by
  refine ⟨by decide, ?_, ?_⟩
  · intro dst src w
    unfold decodeBytes
    split
    · simp
    · exact decodeBytesF_ne_panic _ _ _ _ (by omega)
  · intro dst src
    exact decodeBitsF_ne_panic _ _ _ (by omega)

/-- C6.  A run header declaring a count above `maxSupportedValueCount` makes
every decoder return the count-too-large error right after reading the
header, with the output buffer exactly as it was before the run. -/
theorem claim_C6_countTooLarge (u : Nat) (rest dst : List Nat)
    (hcap : maxSupportedValueCount < u / 2) (hu : u < 2 ^ 64) :
    decodeBits dst (putUvarint u ++ rest) = .err dst .countTooLarge ∧
    (∀ w : Nat, w ≤ 8 → decodeBytes dst (putUvarint u ++ rest) w
      = .err dst .countTooLarge) ∧
    (∀ w : Nat, w ≤ 32 → decodeInt32 dst (putUvarint u ++ rest) w
      = .err dst .countTooLarge) := by
  have huv : uvarint (putUvarint u ++ rest) = .ok u (putUvarint u).length :=
    uvarint_putUvarint _ _ hu
  obtain ⟨y, ys, hsrc⟩ : ∃ y ys, putUvarint u ++ rest = y :: ys := by
    cases h : putUvarint u ++ rest with
    | nil => exact absurd (List.append_eq_nil.mp h).1 (putUvarint_ne_nil _)
    | cons y ys => exact ⟨y, ys, rfl⟩
  refine ⟨?_, ?_, ?_⟩
  · unfold decodeBits
    rw [hsrc, decodeBitsF_succ_cons, ← hsrc, huv]
    simp only []
    rw [if_pos (by omega : u / 2 > maxSupportedValueCount)]
  · intro w hw
    unfold decodeBytes
    rw [if_neg (by omega : ¬ w > 8)]
    rw [hsrc, decodeBytesF_succ_cons, ← hsrc, huv]
    simp only []
    rw [if_pos (by omega : u / 2 > maxSupportedValueCount)]
  · intro w hw
    unfold decodeInt32
    rw [if_neg (by omega : ¬ w > 32)]
    rw [hsrc, decodeInt32F_succ_cons, ← hsrc, huv]
    simp only []
    rw [if_pos (by omega : u / 2 > maxSupportedValueCount)]

/-- Witness for C6 at `u = 2 ^ 25 + 2` (count `2 ^ 24 + 1`), `rest = [0]`,
`dst = [9]`. -/
theorem claim_C6_countTooLarge_witness :
    maxSupportedValueCount < (2 ^ 25 + 2) / 2 ∧ (2 ^ 25 + 2 : Nat) < 2 ^ 64 ∧
    (decodeBits [9] (putUvarint (2 ^ 25 + 2) ++ [0]) = .err [9] .countTooLarge ∧
     (∀ w : Nat, w ≤ 8 → decodeBytes [9] (putUvarint (2 ^ 25 + 2) ++ [0]) w
       = .err [9] .countTooLarge) ∧
     (∀ w : Nat, w ≤ 32 → decodeInt32 [9] (putUvarint (2 ^ 25 + 2) ++ [0]) w
       = .err [9] .countTooLarge)) :=
  ⟨by decide, by decide,
   claim_C6_countTooLarge (2 ^ 25 + 2) [0] [9] (by decide) (by decide)⟩

theorem decodeBitsF_nil (fuel : Nat) (dst : List Nat) (h : 1 ≤ fuel) :
    decodeBitsF fuel dst [] = .ok dst := by
  cases fuel with
  | zero => omega
  | succ f => rfl

/-- C5 counterexample.  The input `[0x10]` is a run-length header with count 8
whose value byte is missing (the remaining bytes are fewer than the run
requires), yet `decodeBits` reports no error: it substitutes `0x00` for the
missing byte and returns one zero byte. -/
theorem claim_C5_counterexample : decodeBits [] [16] = .ok [0] := by decide

/-- C5 (amended).  A truncated run body yields the truncated-body error and
leaves the output buffer exactly as accumulated before the run — for the
missing run-length value byte of `decodeBytes` (width ≥ 1) and `decodeInt32`,
and for a short bit-packed payload of `decodeBits` and `decodeBytes`; the
exception forced by the counterexample is `decodeBits`, which treats a
missing run-length value byte as `0x00` and reports no error (and a short
bit-packed payload of `decodeInt32` is the out-of-bounds access of C4, not an
error return). -/
theorem claim_C5_truncatedBody (dst rest : List Nat) (w c k : Nat)
    (hc : c ≤ maxSupportedValueCount) (hc64 : 2 * c < 2 ^ 64)
    (hk : k ≤ maxSupportedValueCount) (hk64 : 2 * k + 1 < 2 ^ 64) :
    (1 ≤ w → w ≤ 8 → decodeBytes dst (putUvarint (2 * c)) w = .err dst .truncatedBody) ∧
    (w ≤ 8 → rest.length < byteCount (8 * k * w) →
      decodeBytes dst (putUvarint (2 * k + 1) ++ rest) w = .err dst .truncatedBody) ∧
    (rest.length < k →
      decodeBits dst (putUvarint (2 * k + 1) ++ rest) = .err dst .truncatedBody) ∧
    (1 ≤ w → w ≤ 32 → rest.length < byteCount w →
      decodeInt32 dst (putUvarint (2 * c) ++ rest) w = .err dst .truncatedBody) ∧
    (decodeBits dst (putUvarint (2 * c))
      = .ok (dst ++ List.replicate (byteCount c) 0)) := by
  have huc : uvarint (putUvarint (2 * c) ++ ([] : List Nat))
      = .ok (2 * c) (putUvarint (2 * c)).length := uvarint_putUvarint _ _ hc64
  rw [List.append_nil] at huc
  have hucr : uvarint (putUvarint (2 * c) ++ rest)
      = .ok (2 * c) (putUvarint (2 * c)).length := uvarint_putUvarint _ _ hc64
  have huk : uvarint (putUvarint (2 * k + 1) ++ rest)
      = .ok (2 * k + 1) (putUvarint (2 * k + 1)).length := uvarint_putUvarint _ _ hk64
  obtain ⟨y, ys, hsrc⟩ : ∃ y ys, putUvarint (2 * c) = y :: ys := by
    cases h : putUvarint (2 * c) with
    | nil => exact absurd h (putUvarint_ne_nil _)
    | cons y ys => exact ⟨y, ys, rfl⟩
  obtain ⟨z, zs, hsrck⟩ : ∃ z zs, putUvarint (2 * k + 1) ++ rest = z :: zs := by
    cases h : putUvarint (2 * k + 1) ++ rest with
    | nil => exact absurd (List.append_eq_nil.mp h).1 (putUvarint_ne_nil _)
    | cons z zs => exact ⟨z, zs, rfl⟩
  obtain ⟨p, ps, hsrcc⟩ : ∃ p ps, putUvarint (2 * c) ++ rest = p :: ps := by
    cases h : putUvarint (2 * c) ++ rest with
    | nil => exact absurd (List.append_eq_nil.mp h).1 (putUvarint_ne_nil _)
    | cons p ps => exact ⟨p, ps, rfl⟩
  refine ⟨?_, ?_, ?_, ?_, ?_⟩
  · intro hw1 hw8
    unfold decodeBytes
    rw [if_neg (by omega : ¬ w > 8)]
    rw [hsrc, decodeBytesF_succ_cons, ← hsrc, huc]
    simp only []
    rw [show 2 * c / 2 = c from by omega]
    rw [if_neg (by omega : ¬ c > maxSupportedValueCount)]
    rw [if_neg (by omega : ¬ (2 * c % 2 = 1))]
    rw [if_pos ?_]
    constructor
    · omega
    · simp [List.drop_length]
  · intro hw8 hshort
    unfold decodeBytes
    rw [if_neg (by omega : ¬ w > 8)]
    rw [hsrck, decodeBytesF_succ_cons, ← hsrck, huk]
    simp only []
    rw [show (2 * k + 1) / 2 = k from by omega]
    rw [if_neg (by omega : ¬ k > maxSupportedValueCount)]
    rw [if_pos (by omega : (2 * k + 1) % 2 = 1)]
    rw [List.drop_left]
    rw [if_pos hshort]
  · intro hshort
    unfold decodeBits
    rw [hsrck, decodeBitsF_succ_cons, ← hsrck, huk]
    simp only []
    rw [show (2 * k + 1) / 2 = k from by omega]
    rw [if_neg (by omega : ¬ k > maxSupportedValueCount)]
    rw [if_pos (by omega : (2 * k + 1) % 2 = 1)]
    rw [List.drop_left]
    rw [if_pos hshort]
  · intro hw1 hw32 hshort
    unfold decodeInt32
    rw [if_neg (by omega : ¬ w > 32)]
    rw [hsrcc, decodeInt32F_succ_cons, ← hsrcc, hucr]
    simp only []
    rw [show 2 * c / 2 = c from by omega]
    rw [if_neg (by omega : ¬ c > maxSupportedValueCount)]
    rw [if_neg (by omega : ¬ (2 * c % 2 = 1))]
    rw [List.drop_left]
    rw [if_pos hshort]
  · unfold decodeBits
    rw [hsrc, decodeBitsF_succ_cons, ← hsrc, huc]
    simp only []
    rw [show 2 * c / 2 = c from by omega]
    rw [if_neg (by omega : ¬ c > maxSupportedValueCount)]
    rw [if_neg (by omega : ¬ (2 * c % 2 = 1))]
    rw [List.drop_length]
    simp only [List.headD_nil, List.tail_nil]
    exact decodeBitsF_nil _ _ (by rw [hsrc]; simp)

/-- Witness for C5 at `dst = [7]`, `rest = []`, `w = 8`, `c = k = 1`. -/
theorem claim_C5_truncatedBody_witness :
    (1 : Nat) ≤ maxSupportedValueCount ∧ (2 * 1 : Nat) < 2 ^ 64 ∧
    (2 * 1 + 1 : Nat) < 2 ^ 64 ∧
    ((1 ≤ 8 → 8 ≤ 8 → decodeBytes [7] (putUvarint 2) 8 = .err [7] .truncatedBody) ∧
     (8 ≤ 8 → ([] : List Nat).length < byteCount (8 * 1 * 8) →
       decodeBytes [7] (putUvarint 3 ++ []) 8 = .err [7] .truncatedBody) ∧
     (([] : List Nat).length < 1 →
       decodeBits [7] (putUvarint 3 ++ []) = .err [7] .truncatedBody) ∧
     (1 ≤ 8 → 8 ≤ 32 → ([] : List Nat).length < byteCount 8 →
       decodeInt32 [7] (putUvarint 2 ++ []) 8 = .err [7] .truncatedBody) ∧
     (decodeBits [7] (putUvarint 2) = .ok ([7] ++ List.replicate (byteCount 1) 0))) :=
  ⟨by decide, by decide, by decide,
   claim_C5_truncatedBody [7] [] 8 1 1 (by decide) (by decide) (by decide) (by decide)⟩

/-- C8 counterexample.  Encoding the empty boolean stream yields the 5 bytes
`01 00 00 00 00` — a little-endian length prefix of 1 followed by the 1-byte
zero-count run-length header — not the four zero bytes. -/
theorem claim_C8_counterexample :
    EncodeBoolean [] = [1, 0, 0, 0, 0] ∧ ([1, 0, 0, 0, 0] : List Nat) ≠ [0, 0, 0, 0] := by
  constructor
  · decide
  · decide

/-- C8 (amended).  The empty boolean stream encodes to `01 00 00 00 00` (a
4-byte little-endian prefix of 1 and the 1-byte body `0x00`); decoding the
4-byte all-zero page yields the empty stream; and for every boolean input
the encoder output is exactly the 4-byte little-endian rendering of the body
length followed by the body. -/
theorem claim_C8_framing (src dst : List Nat) :
    EncodeBoolean [] = [1, 0, 0, 0, 0] ∧
    DecodeBoolean dst [0, 0, 0, 0] = .ok [] ∧
    EncodeBoolean src = natToLE 4 ((encodeBits src).length) ++ encodeBits src := by
  refine ⟨by decide, rfl, ?_⟩
  unfold EncodeBoolean putUint32At0
  show natToLE 4 (([0, 0, 0, 0] ++ encodeBits src).length - 4)
      ++ ([0, 0, 0, 0] ++ encodeBits src).drop 4
    = natToLE 4 (encodeBits src).length ++ encodeBits src
  have h1 : (([0, 0, 0, 0] ++ encodeBits src)).length - 4 = (encodeBits src).length := by
    simp
  have h2 : ([0, 0, 0, 0] ++ encodeBits src).drop 4 = encodeBits src := rfl
  rw [h1, h2]

/-- Witness for C8 at `src = [1, 0, 1]`, `dst = [3]`. -/
theorem claim_C8_framing_witness :
    EncodeBoolean [] = [1, 0, 0, 0, 0] ∧
    DecodeBoolean [3] [0, 0, 0, 0] = .ok [] ∧
    EncodeBoolean [1, 0, 1]
      = natToLE 4 ((encodeBits [1, 0, 1]).length) ++ encodeBits [1, 0, 1] :=
  claim_C8_framing [1, 0, 1] [3]

/-- C10.  `DecodeBoolean` treats every 4-byte input as an empty page with no
error, whatever its content; shorter inputs error; and when more than 4 bytes
are present but the length prefix exceeds the remaining byte count, it errors
without decoding. -/
theorem claim_C10_decodeBoolean (dst src : List Nat) :
    (src.length = 4 → DecodeBoolean dst src = .ok []) ∧
    (src.length < 4 → DecodeBoolean dst src = .err [] .inputTooShort) ∧
    (4 < src.length → src.length - 4 < leToNat (src.take 4) →
      DecodeBoolean dst src = .err [] .lengthPrefixTooLarge) := by
  refine ⟨?_, ?_, ?_⟩
  · intro h
    unfold DecodeBoolean
    rw [if_pos h]
  · intro h
    unfold DecodeBoolean
    rw [if_neg (by omega), if_pos h]
  · intro h4 hpre
    unfold DecodeBoolean
    rw [if_neg (by omega), if_neg (by omega)]
    rw [if_pos ?_]
    simp only [List.length_drop]
    omega

/-- Witness for C10 at the inputs `[255,255,255,255]`, `[1,2]` and
`[5,0,0,0,1]`. -/
theorem claim_C10_decodeBoolean_witness :
    (([255, 255, 255, 255] : List Nat).length = 4 →
      DecodeBoolean [] [255, 255, 255, 255] = .ok []) ∧
    (([1, 2] : List Nat).length < 4 →
      DecodeBoolean [] [1, 2] = .err [] .inputTooShort) ∧
    (4 < ([5, 0, 0, 0, 1] : List Nat).length →
      ([5, 0, 0, 0, 1] : List Nat).length - 4 < leToNat ([5, 0, 0, 0, 1].take 4) →
      DecodeBoolean [] [5, 0, 0, 0, 1] = .err [] .lengthPrefixTooLarge) :=
  ⟨(claim_C10_decodeBoolean [] [255, 255, 255, 255]).1,
   (claim_C10_decodeBoolean [] [1, 2]).2.1,
   (claim_C10_decodeBoolean [] [5, 0, 0, 0, 1]).2.2⟩

theorem countLeadEq_replicate {α : Type} [DecidableEq α] (x : α) (m : Nat) :
    countLeadEq x (List.replicate m x) = m := by
  induction m with
  | zero => rfl
  | succ k ih =>
    rw [List.replicate_succ]
    show (if x = x then 1 + countLeadEq x (List.replicate k x) else 0) = k + 1
    rw [if_pos rfl, ih]
    omega

theorem fullChunks8_replicate (n v : Nat) :
    fullChunks8 (List.replicate n v) = List.replicate (n / 8) (List.replicate 8 v) := by
  induction n using Nat.strong_induction_on with
  | _ n ih =>
    rw [fullChunks8_eq]
    rw [List.length_replicate]
    by_cases hn : n < 8
    · rw [if_pos hn, Nat.div_eq_of_lt hn]
      rfl
    · rw [if_neg hn]
      rw [List.take_replicate, List.drop_replicate]
      rw [ih (n - 8) (by omega)]
      rw [show min 8 n = 8 from by omega]
      rw [show n / 8 = (n - 8) / 8 + 1 from by omega]
      exact (List.replicate_succ _ _).symm

theorem encodeBytesGroupsF_nil (f w : Nat) : encodeBytesGroupsF f [] w = [] := by
  cases f <;> rfl

theorem encodeInt32GroupsF_nil (f w : Nat) : encodeInt32GroupsF f [] w = [] := by
  cases f <;> rfl

theorem encodeRleTailF_nil (f : Nat) : encodeRleTailF f [] = [] := by
  cases f <;> rfl

theorem encodeRleTailInt32F_nil (f w : Nat) : encodeRleTailInt32F f [] w = [] := by
  cases f <;> rfl

/-- The constant-input encoding of `encodeBytes` for widths 1..8: one
run-length run. -/
theorem encodeBytes_replicate (n v w : Nat) (hn8 : 8 ≤ n) (hdvd : 8 ∣ n)
    (hw1 : 1 ≤ w) (hw8 : w ≤ 8) :
    encodeBytes (List.replicate n v) w = .ok (putUvarint (2 * n) ++ [v]) := by
  rw [encodeBytes, if_neg (by omega : ¬ w > 8), if_neg (by omega : ¬ w = 0)]
  rw [List.length_replicate, fullChunks8_replicate]
  have hq : 1 ≤ n / 8 := by omega
  have h8q : 8 * (n / 8) = n := Nat.mul_div_cancel' hdvd
  rw [h8q, List.drop_replicate, Nat.sub_self, List.replicate_zero, encodeRleTailF_nil,
    List.append_nil]
  rw [show List.replicate (n / 8) (List.replicate 8 v)
      = List.replicate 8 v :: List.replicate (n / 8 - 1) (List.replicate 8 v) from by
    rw [← List.replicate_succ]
    congr 1
    omega]
  simp only [encodeBytesGroupsF]
  have hhd : (List.replicate 8 v).headD 0 = v := rfl
  rw [hhd, if_pos rfl, countLeadEq_replicate]
  rw [show 1 + (n / 8 - 1) - 1 = n / 8 - 1 from by omega]
  rw [List.drop_replicate, Nat.sub_self, List.replicate_zero, encodeBytesGroupsF_nil,
    List.append_nil]
  rw [show 8 * (1 + (n / 8 - 1)) = n from by omega]

/-- The constant-input encoding of `encodeInt32` for widths 1..32: one
run-length run. -/
theorem encodeInt32_replicate (n v w : Nat) (hn8 : 8 ≤ n) (hdvd : 8 ∣ n)
    (hw1 : 1 ≤ w) (hw32 : w ≤ 32) :
    encodeInt32 (List.replicate n v) w
      = .ok (putUvarint (2 * n) ++ natToLE (byteCount w) v) := by
  rw [encodeInt32, if_neg (by omega : ¬ w > 32), if_neg (by omega : ¬ w = 0)]
  rw [List.length_replicate, fullChunks8_replicate]
  have hq : 1 ≤ n / 8 := by omega
  have h8q : 8 * (n / 8) = n := Nat.mul_div_cancel' hdvd
  rw [h8q, List.drop_replicate, Nat.sub_self, List.replicate_zero, encodeRleTailInt32F_nil,
    List.append_nil]
  rw [show List.replicate (n / 8) (List.replicate 8 v)
      = List.replicate 8 v :: List.replicate (n / 8 - 1) (List.replicate 8 v) from by
    rw [← List.replicate_succ]
    congr 1
    omega]
  simp only [encodeInt32GroupsF]
  have hhd : (List.replicate 8 v).headD 0 = v := rfl
  rw [hhd, if_pos rfl, countLeadEq_replicate]
  rw [show 1 + (n / 8 - 1) - 1 = n / 8 - 1 from by omega]
  rw [List.drop_replicate, Nat.sub_self, List.replicate_zero, encodeInt32GroupsF_nil,
    List.append_nil]
  rw [show 8 * (1 + (n / 8 - 1)) = n from by omega]

/-- C9 (amended).  For a constant input whose length `n` is at least 8 and a
multiple of 8, the encoder emits exactly one run-length run — the varint
header for count `n` followed by the `ceil(w/8)` value bytes — of total size
at most `ceil(w/8) + 10` bytes (for `8 ∤ n` the tail loop emits a second
run-length run for the leftover values, refuting "exactly one run").  Width 0
emits the bare header. -/
theorem claim_C9_constant_rle (n v w : Nat) (hn8 : 8 ≤ n) (hdvd : 8 ∣ n)
    (hn : n < 2 ^ 60) :
    (encodeBytes (List.replicate n 0) 0 = .ok (putUvarint (2 * n)) ∧
      (putUvarint (2 * n)).length ≤ byteCount 0 + 10) ∧
    (1 ≤ w → w ≤ 8 → v < 2 ^ w →
      encodeBytes (List.replicate n v) w = .ok (putUvarint (2 * n) ++ [v]) ∧
      (putUvarint (2 * n) ++ [v]).length ≤ byteCount w + 10) ∧
    (1 ≤ w → w ≤ 32 → v < 2 ^ w →
      encodeInt32 (List.replicate n v) w
        = .ok (putUvarint (2 * n) ++ natToLE (byteCount w) v) ∧
      (putUvarint (2 * n) ++ natToLE (byteCount w) v).length ≤ byteCount w + 10) := by
  have hhead : (putUvarint (2 * n)).length ≤ 10 := by
    apply putUvarint_length_le (2 * n) 10 (by omega)
    have h1 : (2 : Nat) ^ 60 * 2 ≤ 2 ^ 70 := by norm_num
    have h2 : 7 * 10 = 70 := by norm_num
    rw [h2]
    omega
  refine ⟨⟨?_, by omega⟩, ?_, ?_⟩
  · rw [encodeBytes, if_neg (by omega : ¬ (0 : Nat) > 8), if_pos rfl,
      if_pos (isZero_replicate0 n), List.length_replicate]
  · intro hw1 hw8 hv
    refine ⟨encodeBytes_replicate n v w hn8 hdvd hw1 hw8, ?_⟩
    have hbc : 1 ≤ byteCount w := by
      unfold byteCount
      omega
    simp only [List.length_append, List.length_cons, List.length_nil]
    omega
  · intro hw1 hw32 hv
    refine ⟨encodeInt32_replicate n v w hn8 hdvd hw1 hw32, ?_⟩
    simp only [List.length_append, natToLE_length]
    omega

/-- Witness for C9 at `n = 16`, `v = 3`, `w = 4`. -/
theorem claim_C9_constant_rle_witness :
    (8 ≤ 16 ∧ 8 ∣ 16 ∧ 16 < 2 ^ 60) ∧
    ((encodeBytes (List.replicate 16 0) 0 = .ok (putUvarint (2 * 16)) ∧
       (putUvarint (2 * 16)).length ≤ byteCount 0 + 10) ∧
     (1 ≤ 4 → 4 ≤ 8 → 3 < 2 ^ 4 →
       encodeBytes (List.replicate 16 3) 4 = .ok (putUvarint (2 * 16) ++ [3]) ∧
       (putUvarint (2 * 16) ++ [3]).length ≤ byteCount 4 + 10) ∧
     (1 ≤ 4 → 4 ≤ 32 → 3 < 2 ^ 4 →
       encodeInt32 (List.replicate 16 3) 4
         = .ok (putUvarint (2 * 16) ++ natToLE (byteCount 4) 3) ∧
       (putUvarint (2 * 16) ++ natToLE (byteCount 4) 3).length ≤ byteCount 4 + 10)) :=
  ⟨⟨by decide, by decide, by norm_num⟩,
   claim_C9_constant_rle 16 3 4 (by decide) (by decide) (by norm_num)⟩

/-- C9 counterexample.  The constant input of nine 1-bytes at width 1 encodes
as two run-length runs (`[0x10, 0x01]` for the first eight values and
`[0x02, 0x01]` for the ninth), not as the single run `[0x12, 0x01]` the claim
requires for every constant input of length ≥ 8. -/
theorem claim_C9_counterexample :
    encodeBytes (List.replicate 9 1) 1 = .ok ([16, 1] ++ [2, 1]) ∧
    ([16, 1] ++ [2, 1] : List Nat) ≠ putUvarint (2 * 9) ++ [1] := by
  constructor
  · rfl
  · decide

end Rle

namespace Vparquet

/-! ### The trace lookup algorithm (`vparquet` package)

Trace ids are modelled by their comparison key: the byte list of the 32-char
lowercase hex rendering produced by `util.TraceIDToHexString` (the rendering
itself is outside the lookup code).  `strings.Compare` is byte-wise
lexicographic comparison. -/

/-- The comparison key of a trace id (bytes of its hex string). -/
abbrev TraceKey := List Nat

/-- `strings.Compare` on the byte lists. -/
def cmpId : TraceKey → TraceKey → Ordering
  | [], [] => .eq
  | [], _ :: _ => .lt
  | _ :: _, [] => .gt
  | a :: as, b :: bs => if a < b then .lt else if b < a then .gt else cmpId as bs

/-- `SearchPrevious` from the source. -/
def SearchPrevious : Int := -1

/-- `SearchNext` from the source. -/
def SearchNext : Int := -2

/-- `NotFound` from the source. -/
def NotFound : Int := -3

/-- One page of the trace-id column.  `batches` are the id batches the page's
value reader delivers (`vr.ReadValues`); `tailErr` records whether the stream
ends in a non-`io.EOF` read error instead of `io.EOF` — the source breaks out
of the scan identically in both cases, so the flag is (provably) invisible to
the lookup.  `minV`/`maxV` are the column-index statistics; `hasBounds` is the
`ok` flag of `pg.Bounds()`; `numRows` is `pg.NumRows()`. -/
structure Page where
  batches : List (List TraceKey)
  tailErr : Bool
  minV : TraceKey
  maxV : TraceKey
  hasBounds : Bool
  numRows : Int
  deriving DecidableEq, Repr

/-- The values the page reader delivers, in page order. -/
def Page.values (p : Page) : List TraceKey := p.batches.flatten

/-- A row group's trace-id column chunk: its pages and optional chunk-level
bloom filter (`BloomFilter()` with its `Check` test). -/
structure RowGroup where
  pages : List Page
  bloom : Option (TraceKey → Bool)

/-- Placeholder page (a chunk with no pages would make the source panic on
`ColumnIndex().MinValue(0)`; no claim exercises that case). -/
def defaultPage : Page := ⟨[], false, [], [], false, 0⟩

/-- `RowTracker` from the source. -/
structure RowTracker where
  rgs : List RowGroup
  startRowNum : List Int

/-- First index within a batch whose value compares equal to the id
(`strings.Compare(vs[y].String(), traceID) == 0`). -/
def firstMatch : List TraceKey → TraceKey → Option Nat
  | [], _ => none
  | v :: rest, id =>
    if cmpId v id = .eq then some 0 else (firstMatch rest id).map (· + 1)

/-- The inner value-scan loop: deliver batches in order; a match returns the
running row number plus the in-batch index; after a batch without match the
row counter advances by the batch size.  The loop breaks identically on
`io.EOF` and on any other read error, so the page's `tailErr` does not
appear. -/
def scanBatches : List (List TraceKey) → Int → TraceKey → Option Int
  | [], _, _ => none
  | b :: bs, rowMatch, id =>
    match firstMatch b id with
    | some y => some (rowMatch + (y : Int))
    | none => scanBatches bs (rowMatch + (b.length : Int)) id

/-- The page loop of `findTraceByID`.  A page whose bounds place the id below
its minimum returns `SearchPrevious`; one whose maximum is below the id
advances the row counter and continues; otherwise the page is scanned and —
matching the source's unconditional `break` after the inner loop — the result
is the match or `NotFound` without visiting the remaining pages. -/
def scanPages : List Page → Int → TraceKey → Int
  | [], _, _ => NotFound
  | pg :: rest, rowMatch, id =>
    if pg.hasBounds = true ∧ cmpId id pg.minV = .lt then SearchPrevious
    else if pg.hasBounds = true ∧ cmpId pg.maxV id = .lt then
      scanPages rest (rowMatch + pg.numRows) id
    else
      match scanBatches pg.batches rowMatch id with
      | some r => r
      | none => NotFound

/-- `findTraceByID` from the source: chunk bloom check, chunk bounds check
(first page min, last page max), then the page scan. -/
def findTraceByID (rt : RowTracker) (idx : Nat) (traceID : TraceKey) : Int :=
  let rg := rt.rgs.getD idx ⟨[], none⟩
  let rowMatch := rt.startRowNum.getD idx 0
  let bloomNeg : Bool := match rg.bloom with
    | some bf => ! bf traceID
    | none => false
  if bloomNeg then NotFound
  else
    let minB := (rg.pages.getD 0 defaultPage).minV
    let maxB := (rg.pages.getD (rg.pages.length - 1) defaultPage).maxV
    if cmpId traceID minB = .lt then SearchPrevious
    else if cmpId maxB traceID = .lt then SearchNext
    else scanPages rg.pages rowMatch traceID

/-- The `binarySearch` recursion of the source, indexed by fuel (the
interval shrinks at every step, so fuel `(stop+1-start).toNat + 1` always
suffices). -/
def binarySearchF : Nat → RowTracker → Int → Int → TraceKey → Int
  | 0, _, _, _, _ => -1
  | fuel + 1, rt, start, stop, id =>
    if start > stop then -1
    else
      let mid := (start + stop) / 2
      let midResult := findTraceByID rt mid.toNat id
      if midResult = SearchPrevious then binarySearchF fuel rt start (mid - 1) id
      else if midResult < 0 then binarySearchF fuel rt (mid + 1) stop id
      else midResult

/-- `binarySearch` from the source. -/
def binarySearch (rt : RowTracker) (start stop : Int) (id : TraceKey) : Int :=
  binarySearchF ((stop + 1 - start).toNat + 1) rt start stop id

/-- Number of row groups probed by the binary search: one `findTraceByID`
call per recursion step, mirroring `binarySearch`'s branching. -/
def countProbesF : Nat → RowTracker → Int → Int → TraceKey → Nat
  | 0, _, _, _, _ => 0
  | fuel + 1, rt, start, stop, id =>
    if start > stop then 0
    else
      let mid := (start + stop) / 2
      let midResult := findTraceByID rt mid.toNat id
      if midResult = SearchPrevious then countProbesF fuel rt start (mid - 1) id + 1
      else if midResult < 0 then countProbesF fuel rt (mid + 1) stop id + 1
      else 1

/-- Probe count at the canonical fuel. -/
def countProbes (rt : RowTracker) (start stop : Int) (id : TraceKey) : Nat :=
  countProbesF ((stop + 1 - start).toNat + 1) rt start stop id

/-- `NumRows()` of a row group (sum of its pages' row counts). -/
def rgNumRows (rg : RowGroup) : Int := (rg.pages.map Page.numRows).sum

/-- The `startRowNum` accumulation loop of `FindTraceByID`. -/
def startRows : List RowGroup → Int → List Int
  | [], _ => []
  | rg :: rest, acc => acc :: startRows rest (acc + rgNumRows rg)

/-- The `RowTracker` built by `FindTraceByID`. -/
def mkRowTracker (rgs : List RowGroup) : RowTracker := ⟨rgs, startRows rgs 0⟩

/-- The values of a row group's trace-id column, in row order. -/
def rgValues (rg : RowGroup) : List TraceKey := (rg.pages.map Page.values).flatten

/-- All trace ids of a block, in row order. -/
def blockValues (rgs : List RowGroup) : List TraceKey := (rgs.map rgValues).flatten

/-- Outcome of the block-level bloom pre-screen (`checkBloom`): the test
result, or a fetch (`r.Read`) or parse (`ReadFrom`) failure. -/
inductive BloomOutcome where
  | ok (found : Bool)
  | fetchErr
  | parseErr

/-- Error kinds surfaced by `FindTraceByID`. -/
inductive FindErr where
  | bloomFetch
  | bloomParse
  | openFailed
  | rowReadFailed
  deriving DecidableEq, Repr

/-- A backend block: the bloom pre-screen outcome for the queried id, whether
`parquet.OpenFile` succeeds, the row groups of the trace-id column, and the
materialized rows (reading row `i` succeeds iff `i` is in range; the trace
payload is abstracted to a `Nat`). -/
structure BackendBlock where
  bloomOutcome : BloomOutcome
  openOk : Bool
  rgs : List RowGroup
  rows : List Nat

/-- `FindTraceByID` from the source: bloom screen (errors surfaced), file
open, row-tracker build, binary search, row materialization.  A negative
search result is returned as a miss `(nil, nil)`. -/
def FindTraceByID (b : BackendBlock) (id : TraceKey) : Except FindErr (Option Nat) :=
  match b.bloomOutcome with
  | .fetchErr => .error .bloomFetch
  | .parseErr => .error .bloomParse
  | .ok found =>
    if ! found then .ok none
    else if ! b.openOk then .error .openFailed
    else
      let rt := mkRowTracker b.rgs
      let rowMatch := binarySearch rt 0 ((b.rgs.length : Int) - 1) id
      if rowMatch < 0 then .ok none
      else
        match b.rows[rowMatch.toNat]? with
        | some tr => .ok (some tr)
        | none => .error .rowReadFailed

/-! ### Order theory of `cmpId` -/

theorem cmpId_eq_iff (a b : TraceKey) : cmpId a b = .eq ↔ a = b := by
  induction a generalizing b with
  | nil =>
    cases b with
    | nil => simp [cmpId]
    | cons y ys => simp [cmpId]
  | cons x xs ih =>
    cases b with
    | nil => simp [cmpId]
    | cons y ys =>
      simp only [cmpId]
      by_cases hxy : x < y
      · simp only [if_pos hxy]
        constructor
        · intro h
          cases h
        · intro h
          obtain ⟨h1, -⟩ := List.cons.injEq x xs y ys ▸ h
          omega
      · by_cases hyx : y < x
        · simp only [if_neg hxy, if_pos hyx]
          constructor
          · intro h
            cases h
          · intro h
            have h1 : x = y := (List.cons.injEq x xs y ys ▸ h).1
            omega
        · have hxy' : x = y := by omega
          subst hxy'
          simp only [if_neg hxy, if_neg hyx, ih ys]
          constructor
          · intro h
            rw [h]
          · intro h
            exact (List.cons.injEq x xs x ys ▸ h).2

theorem cmpId_refl (a : TraceKey) : cmpId a a = .eq := (cmpId_eq_iff a a).mpr rfl

theorem cmpId_lt_iff_gt (a b : TraceKey) : cmpId a b = .lt ↔ cmpId b a = .gt := by
  induction a generalizing b with
  | nil =>
    cases b with
    | nil => simp [cmpId]
    | cons y ys => simp [cmpId]
  | cons x xs ih =>
    cases b with
    | nil => simp [cmpId]
    | cons y ys =>
      simp only [cmpId]
      by_cases hxy : x < y
      · rw [if_pos hxy, if_neg (show ¬ y < x from by omega), if_pos hxy]
        simp
      · by_cases hyx : y < x
        · rw [if_neg hxy, if_pos hyx, if_pos hyx]
          simp
        · have hxy' : x = y := by omega
          subst hxy'
          rw [if_neg hxy, if_neg hyx, if_neg hyx, if_neg hxy]
          exact ih ys

theorem cmpId_lt_trans {a b c : TraceKey} (h₁ : cmpId a b = .lt) (h₂ : cmpId b c = .lt) :
    cmpId a c = .lt := by
  induction a generalizing b c with
  | nil =>
    cases c with
    | nil =>
      cases b with
      | nil => exact h₁
      | cons y ys => simp [cmpId] at h₂
    | cons z zs => simp [cmpId]
  | cons x xs ih =>
    cases b with
    | nil => simp [cmpId] at h₁
    | cons y ys =>
      cases c with
      | nil => simp [cmpId] at h₂
      | cons z zs =>
        simp only [cmpId] at h₁ h₂ ⊢
        by_cases hxy : x < y
        · have hyz : y ≤ z := by
            by_contra hc
            rw [if_neg (show ¬ y < z from by omega),
              if_pos (show z < y from by omega)] at h₂
            cases h₂
          rw [if_pos (show x < z from by omega)]
        · by_cases hyx : y < x
          · rw [if_neg hxy, if_pos hyx] at h₁
            cases h₁
          · have hxy' : x = y := by omega
            subst hxy'
            rw [if_neg hxy, if_neg hyx] at h₁
            by_cases hxz : x < z
            · rw [if_pos hxz]
            · by_cases hzx : z < x
              · rw [if_neg hxz, if_pos hzx] at h₂
                cases h₂
              · have hxz' : x = z := by omega
                subst hxz'
                rw [if_neg hxz, if_neg hzx] at h₂ ⊢
                exact ih h₁ h₂

theorem cmpId_lt_asymm {a b : TraceKey} (h : cmpId a b = .lt) : cmpId b a ≠ .lt := by
  intro hc
  have h2 : cmpId a b = Ordering.gt := (cmpId_lt_iff_gt b a).mp hc
  rw [h] at h2
  cases h2

theorem cmpId_lt_ne {a b : TraceKey} (h : cmpId a b = .lt) : a ≠ b := by
  intro hc
  subst hc
  rw [cmpId_refl a] at h
  cases h

/-- The strict order used for block sortedness. -/
def keyLt (a b : TraceKey) : Prop := cmpId a b = .lt

instance (a b : TraceKey) : Decidable (keyLt a b) := by
  unfold keyLt
  infer_instance

/-- Total last element (empty key for the empty list). -/
def lastD : List TraceKey → TraceKey
  | [] => []
  | a :: rest =>
    match rest with
    | [] => a
    | _ :: _ => lastD rest

theorem lastD_cons_cons (a b : TraceKey) (t : List TraceKey) :
    lastD (a :: b :: t) = lastD (b :: t) := rfl

theorem lastD_mem (l : List TraceKey) (h : l ≠ []) : lastD l ∈ l := by
  induction l with
  | nil => exact absurd rfl h
  | cons a rest ih =>
    cases rest with
    | nil => simp [lastD]
    | cons b t =>
      rw [lastD_cons_cons]
      exact List.mem_cons_of_mem a (ih (List.cons_ne_nil b t))

/-! ### Sorted-list helpers -/

theorem pairwise_head_le {l : List TraceKey} (hp : List.Pairwise keyLt l)
    {v : TraceKey} (hv : v ∈ l) : v = l.headD [] ∨ keyLt (l.headD []) v := by
  cases l with
  | nil => cases hv
  | cons h t =>
    rcases List.mem_cons.mp hv with h1 | h1
    · exact Or.inl h1
    · exact Or.inr ((List.pairwise_cons.mp hp).1 v h1)

theorem pairwise_le_lastD {l : List TraceKey} (hp : List.Pairwise keyLt l)
    {v : TraceKey} (hv : v ∈ l) : v = lastD l ∨ keyLt v (lastD l) := by
  induction l with
  | nil => cases hv
  | cons h t ih =>
    cases t with
    | nil =>
      rcases List.mem_cons.mp hv with h1 | h1
      · left
        exact h1
      · cases h1
    | cons h2 t2 =>
      rw [lastD_cons_cons]
      rcases List.mem_cons.mp hv with h1 | h1
      · subst h1
        right
        exact (List.pairwise_cons.mp hp).1 _ (lastD_mem (h2 :: t2) (List.cons_ne_nil h2 t2))
      · exact ih (List.pairwise_cons.mp hp).2 h1

/-! ### Value-scan characterization -/

/-- Index of the first occurrence of `id` (specification-side). -/
def keyIndex (id : TraceKey) : List TraceKey → Nat
  | [] => 0
  | v :: rest => if v = id then 0 else keyIndex id rest + 1

theorem keyIndex_append_of_not_mem (id : TraceKey) (l₁ l₂ : List TraceKey)
    (h : id ∉ l₁) : keyIndex id (l₁ ++ l₂) = l₁.length + keyIndex id l₂ := by
  induction l₁ with
  | nil => simp
  | cons x xs ih =>
    rw [List.cons_append]
    show (if x = id then 0 else keyIndex id (xs ++ l₂) + 1)
      = (x :: xs).length + keyIndex id l₂
    rw [if_neg (fun hc => h (by rw [← hc]; exact List.mem_cons_self x xs))]
    rw [ih (fun hc => h (List.mem_cons_of_mem x hc))]
    simp only [List.length_cons]
    omega

theorem firstMatch_cons (v id : TraceKey) (rest : List TraceKey) :
    firstMatch (v :: rest) id =
      if cmpId v id = .eq then some 0 else (firstMatch rest id).map (· + 1) := rfl

theorem firstMatch_of_mem (vs : List TraceKey) (id : TraceKey) (h : id ∈ vs) :
    firstMatch vs id = some (keyIndex id vs) := by
  induction vs with
  | nil => cases h
  | cons v rest ih =>
    rw [firstMatch_cons]
    show _ = some (if v = id then 0 else keyIndex id rest + 1)
    by_cases hv : v = id
    · rw [if_pos ((cmpId_eq_iff v id).mpr hv), if_pos hv]
    · rw [if_neg (fun hc => hv ((cmpId_eq_iff v id).mp hc)), if_neg hv]
      have hmem : id ∈ rest := by
        rcases List.mem_cons.mp h with h1 | h1
        · exact absurd h1.symm hv
        · exact h1
      rw [ih hmem]
      rfl

theorem firstMatch_of_not_mem (vs : List TraceKey) (id : TraceKey) (h : id ∉ vs) :
    firstMatch vs id = none := by
  induction vs with
  | nil => rfl
  | cons v rest ih =>
    rw [firstMatch_cons]
    have hv : v ≠ id := fun hc => h (by rw [← hc]; exact List.mem_cons_self v rest)
    rw [if_neg (fun hc => hv ((cmpId_eq_iff v id).mp hc))]
    rw [ih (fun hc => h (List.mem_cons_of_mem v hc))]
    rfl

theorem firstMatch_append (l₁ l₂ : List TraceKey) (id : TraceKey) :
    firstMatch (l₁ ++ l₂) id =
      match firstMatch l₁ id with
      | some y => some y
      | none => (firstMatch l₂ id).map (· + l₁.length) := by
  induction l₁ with
  | nil =>
    show firstMatch l₂ id = (firstMatch l₂ id).map (· + 0)
    cases firstMatch l₂ id <;> simp
  | cons x xs ih =>
    rw [List.cons_append, firstMatch_cons, firstMatch_cons]
    by_cases hx : cmpId x id = Ordering.eq
    · rw [if_pos hx, if_pos hx]
    · rw [if_neg hx, if_neg hx, ih]
      cases h1 : firstMatch xs id with
      | some y => rfl
      | none =>
        cases h2 : firstMatch l₂ id with
        | none => rfl
        | some z =>
          show some (z + xs.length + 1) = some (z + (xs.length + 1))
          rw [Nat.add_assoc]

theorem scanBatches_eq (bs : List (List TraceKey)) (r : Int) (id : TraceKey) :
    scanBatches bs r id = (firstMatch bs.flatten id).map (fun y => r + (y : Int)) := by
  induction bs generalizing r with
  | nil => rfl
  | cons b rest ih =>
    show (match firstMatch b id with
      | some y => some (r + (y : Int))
      | none => scanBatches rest (r + (b.length : Int)) id)
      = (firstMatch (b ++ rest.flatten) id).map (fun y => r + (y : Int))
    rw [firstMatch_append]
    cases hb : firstMatch b id with
    | some y => rfl
    | none =>
      rw [ih]
      cases h2 : firstMatch rest.flatten id with
      | none => rfl
      | some z =>
        show some (r + (b.length : Int) + (z : Int))
          = some (r + ((z + b.length : Nat) : Int))
        congr 1
        push_cast
        ring

/-! ### Page-scan structure -/

theorem scanPages_all_lt (ps : List Page) (id : TraceKey) :
    ∀ r : Int,
    (∀ q ∈ ps, q.hasBounds = true ∧ cmpId q.maxV id = .lt ∧ ¬ cmpId id q.minV = .lt) →
    scanPages ps r id = NotFound := by
  induction ps with
  | nil => intro r h; rfl
  | cons pg rest ih =>
    intro r h
    obtain ⟨hb, hmax, hmin⟩ := h pg (List.mem_cons_self pg rest)
    show (if pg.hasBounds = true ∧ cmpId id pg.minV = Ordering.lt then SearchPrevious
      else if pg.hasBounds = true ∧ cmpId pg.maxV id = Ordering.lt then
        scanPages rest (r + pg.numRows) id
      else
        match scanBatches pg.batches r id with
        | some res => res
        | none => NotFound) = NotFound
    rw [if_neg (fun hc => hmin hc.2), if_pos ⟨hb, hmax⟩]
    exact ih (r + pg.numRows) (fun q hq => h q (List.mem_cons_of_mem pg hq))

theorem scanPages_split (before : List Page) (p : Page) (after : List Page)
    (id : TraceKey) :
    ∀ r : Int,
    (∀ q ∈ before, q.hasBounds = true ∧ cmpId q.maxV id = .lt ∧
      ¬ cmpId id q.minV = .lt) →
    ¬ (p.hasBounds = true ∧ cmpId p.maxV id = .lt) →
    scanPages (before ++ p :: after) r id =
      (if p.hasBounds = true ∧ cmpId id p.minV = .lt then SearchPrevious
       else
         match scanBatches p.batches (r + ((before.map Page.numRows).sum : Int)) id with
         | some res => res
         | none => NotFound) := by
  induction before with
  | nil =>
    intro r hb hp
    rw [List.nil_append]
    show (if p.hasBounds = true ∧ cmpId id p.minV = Ordering.lt then SearchPrevious
      else if p.hasBounds = true ∧ cmpId p.maxV id = Ordering.lt then
        scanPages after (r + p.numRows) id
      else
        match scanBatches p.batches r id with
        | some res => res
        | none => NotFound) = _
    rw [if_neg hp]
    rw [show ((List.map Page.numRows []).sum : Int) = 0 from rfl, add_zero]
  | cons q qs ih =>
    intro r hb hp
    obtain ⟨hqb, hqmax, hqmin⟩ := hb q (List.mem_cons_self q qs)
    rw [List.cons_append]
    show (if q.hasBounds = true ∧ cmpId id q.minV = Ordering.lt then SearchPrevious
      else if q.hasBounds = true ∧ cmpId q.maxV id = Ordering.lt then
        scanPages (qs ++ p :: after) (r + q.numRows) id
      else
        match scanBatches q.batches r id with
        | some res => res
        | none => NotFound) = _
    rw [if_neg (fun hc => hqmin hc.2), if_pos ⟨hqb, hqmax⟩]
    rw [ih (r + q.numRows) (fun x hx => hb x (List.mem_cons_of_mem q hx)) hp]
    rw [show (List.map Page.numRows (q :: qs)).sum = q.numRows + (List.map Page.numRows qs).sum
      from by rw [List.map_cons, List.sum_cons]]
    rw [add_assoc]

/-! ### Well-formed blocks -/

/-- A well-formed page of the trace-id column: bounds available and exact
(first / last value), a non-empty value stream delivered without read error,
and a row count equal to the value count. -/
def WFPage (p : Page) : Prop :=
  p.hasBounds = true ∧ p.tailErr = false ∧ p.values ≠ [] ∧
  p.minV = p.values.headD [] ∧ p.maxV = lastD p.values ∧
  p.numRows = (p.values.length : Int)

instance (p : Page) : Decidable (WFPage p) := by
  unfold WFPage
  infer_instance

/-- A well-formed block: every row group has at least one page, all pages are
well formed, and the trace ids are strictly ascending across the whole block
(sorted with unique ids). -/
def WFBlock (rgs : List RowGroup) : Prop :=
  (∀ rg ∈ rgs, rg.pages ≠ [] ∧ ∀ p ∈ rg.pages, WFPage p) ∧
  List.Pairwise keyLt (blockValues rgs)

theorem headD_append (l₁ l₂ : List TraceKey) (h : l₁ ≠ []) :
    (l₁ ++ l₂).headD [] = l₁.headD [] := by
  cases l₁ with
  | nil => exact absurd rfl h
  | cons a as => rfl

theorem lastD_append (l₁ l₂ : List TraceKey) (h : l₂ ≠ []) :
    lastD (l₁ ++ l₂) = lastD l₂ := by
  induction l₁ with
  | nil => rfl
  | cons a as ih =>
    cases h2 : as ++ l₂ with
    | nil =>
      exact absurd (List.append_eq_nil.mp h2).2 h
    | cons b t =>
      rw [List.cons_append, h2, lastD_cons_cons, ← h2, ih]

theorem keyIndex_append_of_mem (id : TraceKey) (l₁ l₂ : List TraceKey)
    (h : id ∈ l₁) : keyIndex id (l₁ ++ l₂) = keyIndex id l₁ := by
  induction l₁ with
  | nil => cases h
  | cons x xs ih =>
    rw [List.cons_append]
    show (if x = id then 0 else keyIndex id (xs ++ l₂) + 1)
      = (if x = id then 0 else keyIndex id xs + 1)
    by_cases hx : x = id
    · rw [if_pos hx, if_pos hx]
    · rw [if_neg hx, if_neg hx]
      have hmem : id ∈ xs := by
        rcases List.mem_cons.mp h with h1 | h1
        · exact absurd h1.symm hx
        · exact h1
      rw [ih hmem]

theorem getD_append_length {α : Type} (l₁ : List α) (x : α) (l₂ : List α) (d : α) :
    (l₁ ++ x :: l₂).getD l₁.length d = x := by
  induction l₁ with
  | nil => rfl
  | cons a as ih => simpa using ih

theorem startRows_getD (rgs : List RowGroup) :
    ∀ (acc : Int) (k : Nat), k < rgs.length →
    (startRows rgs acc).getD k 0 = acc + ((rgs.take k).map rgNumRows).sum := by
  induction rgs with
  | nil =>
    intro acc k h
    simp at h
  | cons rg rest ih =>
    intro acc k h
    cases k with
    | zero => simp [startRows]
    | succ j =>
      show (startRows rest (acc + rgNumRows rg)).getD j 0 = _
      rw [ih (acc + rgNumRows rg) j (by simp at h; omega)]
      rw [List.take_succ_cons, List.map_cons, List.sum_cons, add_assoc]

theorem pagesRows_eq_length (ps : List Page) (h : ∀ p ∈ ps, WFPage p) :
    (ps.map Page.numRows).sum = (((ps.map Page.values).flatten).length : Int) := by
  induction ps with
  | nil => rfl
  | cons p rest ih =>
    rw [List.map_cons, List.sum_cons, List.map_cons, List.flatten_cons,
      List.length_append]
    rw [(h p (List.mem_cons_self p rest)).2.2.2.2.2]
    rw [ih (fun q hq => h q (List.mem_cons_of_mem p hq))]
    push_cast
    ring

/-- Under well-formedness, a row group's `NumRows` is its value count. -/
theorem rgNumRows_eq_length (rg : RowGroup) (h : ∀ p ∈ rg.pages, WFPage p) :
    rgNumRows rg = ((rgValues rg).length : Int) :=
  pagesRows_eq_length rg.pages h

/-- Sum of `NumRows` over a prefix of well-formed row groups is the number of
values they hold. -/
theorem rgsRows_eq_length (rgs : List RowGroup)
    (h : ∀ rg ∈ rgs, ∀ p ∈ rg.pages, WFPage p) :
    (rgs.map rgNumRows).sum = (((rgs.map rgValues).flatten).length : Int) := by
  induction rgs with
  | nil => rfl
  | cons rg rest ih =>
    rw [List.map_cons, List.sum_cons, List.map_cons, List.flatten_cons,
      List.length_append]
    rw [rgNumRows_eq_length rg (h rg (List.mem_cons_self rg rest))]
    rw [ih (fun r hr => h r (List.mem_cons_of_mem rg hr))]
    push_cast
    ring

/-- `blockValues` of a split block. -/
theorem blockValues_split (pre : List RowGroup) (rg : RowGroup) (post : List RowGroup) :
    blockValues (pre ++ rg :: post)
      = (pre.map rgValues).flatten ++ (rgValues rg ++ (post.map rgValues).flatten) := by
  unfold blockValues
  rw [List.map_append, List.flatten_append, List.map_cons, List.flatten_cons]

/-- The flattened values of a non-empty list of well-formed pages are
non-empty; the first page's min is the first value and the last page's max is
the last value. -/
theorem pages_bounds (ps : List Page) : ps ≠ [] → (∀ p ∈ ps, WFPage p) →
    ((ps.map Page.values).flatten ≠ [] ∧
     (ps.getD 0 defaultPage).minV = ((ps.map Page.values).flatten).headD [] ∧
     (ps.getD (ps.length - 1) defaultPage).maxV = lastD ((ps.map Page.values).flatten)) := by
  induction ps with
  | nil => intro h _; exact absurd rfl h
  | cons p rest ih =>
    intro _ hwf
    have hpwf := hwf p (List.mem_cons_self p rest)
    have hpv : p.values ≠ [] := hpwf.2.2.1
    cases rest with
    | nil =>
      refine ⟨?_, ?_, ?_⟩
      · simp only [List.map_cons, List.map_nil, List.flatten_cons, List.flatten_nil,
          List.append_nil]
        exact hpv
      · simp only [List.map_cons, List.map_nil, List.flatten_cons, List.flatten_nil,
          List.append_nil, List.getD_cons_zero]
        exact hpwf.2.2.2.1
      · simp only [List.map_cons, List.map_nil, List.flatten_cons, List.flatten_nil,
          List.append_nil, List.length_cons, List.length_nil, Nat.add_sub_cancel,
          List.getD_cons_zero]
        exact hpwf.2.2.2.2.1
    | cons p2 rest2 =>
      have hrec := ih (List.cons_ne_nil p2 rest2)
        (fun q hq => hwf q (List.mem_cons_of_mem p hq))
      have hflat_ne : ((p2 :: rest2).map Page.values).flatten ≠ [] := hrec.1
      refine ⟨?_, ?_, ?_⟩
      · simp only [List.map_cons, List.flatten_cons]
        intro hc; exact hpv (List.append_eq_nil.mp hc).1
      · simp only [List.map_cons, List.flatten_cons, List.getD_cons_zero]
        rw [headD_append _ _ hpv]; exact hpwf.2.2.2.1
      · simp only [List.map_cons, List.flatten_cons, List.length_cons,
          Nat.add_sub_cancel, List.getD_cons_succ]
        rw [lastD_append p.values (p2.values ++ ((rest2.map Page.values)).flatten)
          (by simpa only [List.map_cons, List.flatten_cons] using hflat_ne)]
        have h2 := hrec.2.2
        simp only [List.length_cons, Nat.add_sub_cancel, List.map_cons,
          List.flatten_cons] at h2
        exact h2

/-- The values of a non-empty well-formed row group are non-empty, its first
page's min is the first value and its last page's max is the last value. -/
theorem rg_bounds (rg : RowGroup) (hne : rg.pages ≠ [])
    (hwf : ∀ p ∈ rg.pages, WFPage p) :
    rgValues rg ≠ [] ∧
    (rg.pages.getD 0 defaultPage).minV = (rgValues rg).headD [] ∧
    (rg.pages.getD (rg.pages.length - 1) defaultPage).maxV = lastD (rgValues rg) :=
  pages_bounds rg.pages hne hwf

/-! ### Probe characterization -/

theorem headD_mem (l : List TraceKey) (h : l ≠ []) : l.headD [] ∈ l := by
  cases l with
  | nil => exact absurd rfl h
  | cons a t => exact List.mem_cons_self a t

theorem getD_mem_of_lt {α : Type} (l : List α) (j : Nat) (d : α) (hj : j < l.length) :
    l.getD j d ∈ l := by
  induction l generalizing j with
  | nil => simp at hj
  | cons a t ih =>
    cases j with
    | zero => exact List.mem_cons_self a t
    | succ j' =>
      rw [List.getD_cons_succ]
      exact List.mem_cons_of_mem a (ih j' (by simp at hj; omega))

theorem getD_mem_drop {α : Type} (l : List α) (n j : Nat) (d : α) (hnj : n ≤ j)
    (hj : j < l.length) : l.getD j d ∈ l.drop n := by
  induction l generalizing n j with
  | nil => simp at hj
  | cons a t ih =>
    cases n with
    | zero => exact getD_mem_of_lt _ j d hj
    | succ n' =>
      cases j with
      | zero => omega
      | succ j' =>
        rw [List.getD_cons_succ, List.drop_succ_cons]
        exact ih n' j' (by omega) (by simp at hj; omega)

theorem split_at {α : Type} (l : List α) (i : Nat) (d : α) (h : i < l.length) :
    l = l.take i ++ l.getD i d :: l.drop (i + 1) := by
  induction l generalizing i with
  | nil => simp at h
  | cons a t ih =>
    cases i with
    | zero => simp
    | succ i' =>
      have hstep := ih i' (by simp at h; omega)
      rw [List.take_succ_cons, List.getD_cons_succ, List.drop_succ_cons,
        List.cons_append]
      exact congrArg (a :: ·) hstep

/-- Values of an earlier row group are all below values of a later one, in a
block whose trace ids are strictly sorted. -/
theorem blockCross (rgs : List RowGroup)
    (hp : List.Pairwise keyLt (blockValues rgs)) (i j : Nat) (hij : i < j)
    (hj : j < rgs.length) :
    ∀ a ∈ rgValues (rgs.getD i ⟨[], none⟩), ∀ b ∈ rgValues (rgs.getD j ⟨[], none⟩),
      keyLt a b := by
  have hi : i < rgs.length := lt_trans hij hj
  have hsplit := split_at rgs i ⟨[], none⟩ hi
  rw [hsplit, blockValues_split] at hp
  rcases List.pairwise_append.mp hp with ⟨_, hmid, _⟩
  rcases List.pairwise_append.mp hmid with ⟨_, _, hcross⟩
  intro a ha b hb
  refine hcross a ha b ?_
  exact List.mem_flatten.mpr ⟨rgValues (rgs.getD j ⟨[], none⟩),
    List.mem_map_of_mem rgValues
      (getD_mem_drop rgs (i + 1) j ⟨[], none⟩ (by omega) hj), hb⟩

/-- One-step characterization of the per-row-group probe. -/
theorem findTraceByID_eq (rt : RowTracker) (idx : Nat) (id : TraceKey) :
    findTraceByID rt idx id =
      (if (match (rt.rgs.getD idx ⟨[], none⟩).bloom with
            | some bf => ! bf id
            | none => false) = true then NotFound
       else if cmpId id (((rt.rgs.getD idx ⟨[], none⟩).pages.getD 0 defaultPage).minV)
          = .lt then SearchPrevious
       else if cmpId (((rt.rgs.getD idx ⟨[], none⟩).pages.getD
            ((rt.rgs.getD idx ⟨[], none⟩).pages.length - 1) defaultPage).maxV) id
          = .lt then SearchNext
       else scanPages (rt.rgs.getD idx ⟨[], none⟩).pages
         (rt.startRowNum.getD idx 0) id) := rfl

/-- Probe at a row group whose values all lie below the id: the result is
negative (`SearchNext` or, on a bloom negative, `NotFound`) and never
`SearchPrevious`. -/
theorem probe_gt_all (pre : List RowGroup) (rg : RowGroup) (post : List RowGroup)
    (id : TraceKey) (hwf : WFBlock (pre ++ rg :: post))
    (hall : ∀ v ∈ rgValues rg, keyLt v id) :
    findTraceByID (mkRowTracker (pre ++ rg :: post)) pre.length id < 0 ∧
    findTraceByID (mkRowTracker (pre ++ rg :: post)) pre.length id ≠ SearchPrevious := by
  have hrgmem : rg ∈ pre ++ rg :: post :=
    List.mem_append_right pre (List.mem_cons_self rg post)
  obtain ⟨hne, hpwf⟩ := hwf.1 rg hrgmem
  have hbounds := rg_bounds rg hne hpwf
  have hgetrg : (pre ++ rg :: post).getD pre.length ⟨[], none⟩ = rg :=
    getD_append_length pre rg post _
  rw [findTraceByID_eq,
    show (mkRowTracker (pre ++ rg :: post)).rgs = pre ++ rg :: post from rfl, hgetrg]
  cases hb : rg.bloom with
  | some bf =>
    cases hbf : bf id with
    | false =>
      rw [if_pos (show (match some bf with | some bf => ! bf id | none => false) = true
        from by simp [hbf])]
      exact ⟨by decide, by decide⟩
    | true =>
      rw [if_neg (show ¬ (match some bf with | some bf => ! bf id | none => false) = true
        from by simp [hbf])]
      have hmin : ¬ cmpId id ((rg.pages.getD 0 defaultPage).minV) = .lt := by
        rw [hbounds.2.1]
        exact cmpId_lt_asymm (hall _ (headD_mem _ hbounds.1))
      have hmax : cmpId ((rg.pages.getD (rg.pages.length - 1) defaultPage).maxV) id
          = .lt := by
        rw [hbounds.2.2]
        exact hall _ (lastD_mem _ hbounds.1)
      rw [if_neg hmin, if_pos hmax]
      exact ⟨by decide, by decide⟩
  | none =>
    rw [if_neg (show ¬ (match (none : Option (TraceKey → Bool)) with
        | some bf => ! bf id | none => false) = true from by simp)]
    have hmin : ¬ cmpId id ((rg.pages.getD 0 defaultPage).minV) = .lt := by
      rw [hbounds.2.1]
      exact cmpId_lt_asymm (hall _ (headD_mem _ hbounds.1))
    have hmax : cmpId ((rg.pages.getD (rg.pages.length - 1) defaultPage).maxV) id
        = .lt := by
      rw [hbounds.2.2]
      exact hall _ (lastD_mem _ hbounds.1)
    rw [if_neg hmin, if_pos hmax]
    exact ⟨by decide, by decide⟩

/-- Probe at a row group whose values all lie above the id, when its bloom
filter passes the id: the result is exactly `SearchPrevious`. -/
theorem probe_lt_all (pre : List RowGroup) (rg : RowGroup) (post : List RowGroup)
    (id : TraceKey) (hwf : WFBlock (pre ++ rg :: post))
    (hbloom : ∀ bf, rg.bloom = some bf → bf id = true)
    (hall : ∀ v ∈ rgValues rg, keyLt id v) :
    findTraceByID (mkRowTracker (pre ++ rg :: post)) pre.length id = SearchPrevious := by
  have hrgmem : rg ∈ pre ++ rg :: post :=
    List.mem_append_right pre (List.mem_cons_self rg post)
  obtain ⟨hne, hpwf⟩ := hwf.1 rg hrgmem
  have hbounds := rg_bounds rg hne hpwf
  have hgetrg : (pre ++ rg :: post).getD pre.length ⟨[], none⟩ = rg :=
    getD_append_length pre rg post _
  rw [findTraceByID_eq,
    show (mkRowTracker (pre ++ rg :: post)).rgs = pre ++ rg :: post from rfl, hgetrg]
  have hbne : (match rg.bloom with | some bf => ! bf id | none => false) = false := by
    cases hb : rg.bloom with
    | none => rfl
    | some bf => simp [hbloom bf hb]
  rw [hbne, if_neg Bool.false_ne_true]
  have hmin : cmpId id ((rg.pages.getD 0 defaultPage).minV) = .lt := by
    rw [hbounds.2.1]
    exact hall _ (headD_mem _ hbounds.1)
  rw [if_pos hmin]

/-- Probe at the row group containing the id, when its bloom filter passes the
id: the result is the global row number of the id within the block. -/
theorem probe_hit (pre : List RowGroup) (rg : RowGroup) (post : List RowGroup)
    (id : TraceKey) (hwf : WFBlock (pre ++ rg :: post))
    (hbloom : ∀ bf, rg.bloom = some bf → bf id = true)
    (hmem : id ∈ rgValues rg) :
    findTraceByID (mkRowTracker (pre ++ rg :: post)) pre.length id
      = (keyIndex id (blockValues (pre ++ rg :: post)) : Int) := by
  have hlen : pre.length < (pre ++ rg :: post).length := by
    rw [List.length_append, List.length_cons]; omega
  have hgetrg : (pre ++ rg :: post).getD pre.length ⟨[], none⟩ = rg :=
    getD_append_length pre rg post _
  have hrow : (startRows (pre ++ rg :: post) 0).getD pre.length 0
      = 0 + (((pre ++ rg :: post).take pre.length).map rgNumRows).sum :=
    startRows_getD _ 0 pre.length hlen
  have htake : (pre ++ rg :: post).take pre.length = pre := List.take_left pre (rg :: post)
  rw [htake] at hrow
  have hrgmem : rg ∈ pre ++ rg :: post :=
    List.mem_append_right pre (List.mem_cons_self rg post)
  obtain ⟨hne, hpwf⟩ := hwf.1 rg hrgmem
  have hbounds := rg_bounds rg hne hpwf
  have hp := hwf.2
  rw [blockValues_split] at hp
  rcases List.pairwise_append.mp hp with ⟨hpreP, hmidP, hcrossP⟩
  rcases List.pairwise_append.mp hmidP with ⟨hrgP, hpostP, hcross2P⟩
  rw [findTraceByID_eq,
    show (mkRowTracker (pre ++ rg :: post)).rgs = pre ++ rg :: post from rfl,
    show (mkRowTracker (pre ++ rg :: post)).startRowNum
      = startRows (pre ++ rg :: post) 0 from rfl,
    hgetrg, hrow]
  have hbne : (match rg.bloom with | some bf => ! bf id | none => false) = false := by
    cases hb : rg.bloom with
    | none => rfl
    | some bf => simp [hbloom bf hb]
  rw [hbne, if_neg Bool.false_ne_true]
  have hminB : ¬ cmpId id ((rg.pages.getD 0 defaultPage).minV) = .lt := by
    rw [hbounds.2.1]
    rcases pairwise_head_le hrgP hmem with h1 | h1
    · rw [← h1, cmpId_refl]; decide
    · exact cmpId_lt_asymm h1
  rw [if_neg hminB]
  have hmaxB : ¬ cmpId ((rg.pages.getD (rg.pages.length - 1) defaultPage).maxV) id
      = .lt := by
    rw [hbounds.2.2]
    rcases pairwise_le_lastD hrgP hmem with h1 | h1
    · rw [← h1, cmpId_refl]; decide
    · exact cmpId_lt_asymm h1
  rw [if_neg hmaxB]
  obtain ⟨p, hpmem0, hpin⟩ : ∃ p ∈ rg.pages, id ∈ p.values := by
    rcases List.mem_flatten.mp hmem with ⟨s, hs, hids⟩
    rcases List.mem_map.mp hs with ⟨p, hp2, rfl⟩
    exact ⟨p, hp2, hids⟩
  obtain ⟨before, after, hpag⟩ := List.append_of_mem hpmem0
  have hvals : rgValues rg
      = (before.map Page.values).flatten ++ (p.values ++ (after.map Page.values).flatten) := by
    rw [rgValues, hpag, List.map_append, List.flatten_append, List.map_cons,
      List.flatten_cons]
  have hrgP2 := hrgP
  rw [hvals] at hrgP2
  rcases List.pairwise_append.mp hrgP2 with ⟨hbefP, hpAfterP, hcross3⟩
  rcases List.pairwise_append.mp hpAfterP with ⟨hpP, haftP, hcross4⟩
  have hidmem : id ∈ p.values ++ (after.map Page.values).flatten :=
    List.mem_append_left _ hpin
  have hbef : ∀ q ∈ before, q.hasBounds = true ∧ cmpId q.maxV id = .lt ∧
      ¬ cmpId id q.minV = .lt := by
    intro q hq
    have hqwf : WFPage q := hpwf q (by rw [hpag]; exact List.mem_append_left _ hq)
    have hqv : q.values ≠ [] := hqwf.2.2.1
    have hmemflat : ∀ v ∈ q.values, v ∈ (before.map Page.values).flatten := by
      intro v hv
      exact List.mem_flatten.mpr ⟨q.values, List.mem_map_of_mem Page.values hq, hv⟩
    refine ⟨hqwf.1, ?_, ?_⟩
    · rw [hqwf.2.2.2.2.1]
      exact hcross3 _ (hmemflat _ (lastD_mem q.values hqv)) _ hidmem
    · rw [hqwf.2.2.2.1]
      exact cmpId_lt_asymm (hcross3 _ (hmemflat _ (headD_mem q.values hqv)) _ hidmem)
  have hpwfp : WFPage p := hpwf p hpmem0
  have hpmaxOK : ¬ (p.hasBounds = true ∧ cmpId p.maxV id = .lt) := by
    intro hc
    have hc2 := hc.2
    rw [hpwfp.2.2.2.2.1] at hc2
    rcases pairwise_le_lastD hpP hpin with h1 | h1
    · rw [← h1, cmpId_refl] at hc2; exact absurd hc2 (by decide)
    · exact cmpId_lt_asymm h1 hc2
  rw [hpag, scanPages_split before p after id _ hbef hpmaxOK]
  have hpminOK : ¬ (p.hasBounds = true ∧ cmpId id p.minV = .lt) := by
    intro hc
    have hc2 := hc.2
    rw [hpwfp.2.2.2.1] at hc2
    rcases pairwise_head_le hpP hpin with h1 | h1
    · rw [← h1, cmpId_refl] at hc2; exact absurd hc2 (by decide)
    · exact cmpId_lt_asymm h1 hc2
  rw [if_neg hpminOK]
  rw [scanBatches_eq, show p.batches.flatten = p.values from rfl,
    firstMatch_of_mem p.values id hpin]
  have hnotpre : id ∉ (pre.map rgValues).flatten := by
    intro hc
    have := hcrossP id hc id (List.mem_append_left _ hmem)
    rw [keyLt, cmpId_refl] at this
    exact absurd this (by decide)
  have hnotbef : id ∉ (before.map Page.values).flatten := by
    intro hc
    have := hcross3 id hc id hidmem
    rw [keyLt, cmpId_refl] at this
    exact absurd this (by decide)
  have hRHS : keyIndex id (blockValues (pre ++ rg :: post))
      = ((pre.map rgValues).flatten).length
        + (((before.map Page.values).flatten).length + keyIndex id p.values) := by
    rw [blockValues_split, keyIndex_append_of_not_mem id _ _ hnotpre,
      keyIndex_append_of_mem id _ _ hmem, hvals,
      keyIndex_append_of_not_mem id _ _ hnotbef,
      keyIndex_append_of_mem id _ _ hpin]
  have hpreN : (pre.map rgNumRows).sum = (((pre.map rgValues).flatten).length : Int) :=
    rgsRows_eq_length pre (fun r hr => (hwf.1 r (List.mem_append_left _ hr)).2)
  have hbefN : (before.map Page.numRows).sum
      = (((before.map Page.values).flatten).length : Int) :=
    pagesRows_eq_length before
      (fun q hq => hpwf q (by rw [hpag]; exact List.mem_append_left _ hq))
  show 0 + (pre.map rgNumRows).sum + (before.map Page.numRows).sum
      + ((keyIndex id p.values : Nat) : Int) = _
  rw [hpreN, hbefN, hRHS]
  push_cast
  ring

/-! ### Binary search -/

theorem binarySearchF_succ (fuel : Nat) (rt : RowTracker) (lo hi : Int)
    (id : TraceKey) :
    binarySearchF (fuel + 1) rt lo hi id =
      (if lo > hi then -1
       else
         if findTraceByID rt ((lo + hi) / 2).toNat id = SearchPrevious then
           binarySearchF fuel rt lo ((lo + hi) / 2 - 1) id
         else if findTraceByID rt ((lo + hi) / 2).toNat id < 0 then
           binarySearchF fuel rt ((lo + hi) / 2 + 1) hi id
         else findTraceByID rt ((lo + hi) / 2).toNat id) := rfl

theorem countProbesF_succ (fuel : Nat) (rt : RowTracker) (lo hi : Int)
    (id : TraceKey) :
    countProbesF (fuel + 1) rt lo hi id =
      (if lo > hi then 0
       else
         if findTraceByID rt ((lo + hi) / 2).toNat id = SearchPrevious then
           countProbesF fuel rt lo ((lo + hi) / 2 - 1) id + 1
         else if findTraceByID rt ((lo + hi) / 2).toNat id < 0 then
           countProbesF fuel rt ((lo + hi) / 2 + 1) hi id + 1
         else 1) := rfl

/-- Correctness of the binary search when the probes behave like a sorted
three-way oracle around a hit index `k`: indices below `k` probe negative but
not `SearchPrevious`, indices above `k` (within range) probe `SearchPrevious`,
and index `k` probes the non-negative target. -/
theorem binarySearchF_hit (rt : RowTracker) (id : TraceKey) (k target : Int)
    (htarget : 0 ≤ target)
    (hprobe : findTraceByID rt k.toNat id = target) :
    ∀ (fuel : Nat) (lo hi : Int), (hi + 1 - lo).toNat < fuel → 0 ≤ lo →
      lo ≤ k → k ≤ hi →
      (∀ m : Int, 0 ≤ m → m ≤ hi → m < k →
        findTraceByID rt m.toNat id < 0 ∧ findTraceByID rt m.toNat id ≠ SearchPrevious) →
      (∀ m : Int, m ≤ hi → k < m → findTraceByID rt m.toNat id = SearchPrevious) →
      binarySearchF fuel rt lo hi id = target := by
  intro fuel
  induction fuel with
  | zero => intro lo hi hf _ _ _ _ _; omega
  | succ f ih =>
    intro lo hi hf hlo hlok hkhi hlt hgt
    rw [binarySearchF_succ]
    have hle : lo ≤ hi := le_trans hlok hkhi
    rw [if_neg (by omega : ¬ lo > hi)]
    have hmlo : lo ≤ (lo + hi) / 2 := by omega
    have hmhi : (lo + hi) / 2 ≤ hi := by omega
    rcases lt_trichotomy ((lo + hi) / 2) k with hmk | hmk | hmk
    · obtain ⟨hm1, hm2⟩ := hlt ((lo + hi) / 2) (by omega) hmhi hmk
      rw [if_neg hm2, if_pos hm1]
      exact ih ((lo + hi) / 2 + 1) hi (by omega) (by omega) (by omega) hkhi hlt hgt
    · rw [hmk, hprobe]
      rw [if_neg (fun hc => absurd (hc ▸ htarget) (by decide)),
        if_neg (not_lt.mpr htarget)]
    · have hm := hgt ((lo + hi) / 2) hmhi hmk
      rw [if_pos hm]
      refine ih lo ((lo + hi) / 2 - 1) (by omega) hlo hlok (by omega) ?_ ?_
      · intro m hm0 hmh hmk2
        exact hlt m hm0 (by omega) hmk2
      · intro m hmh hmk2
        exact hgt m (by omega) hmk2

/-- If every in-range probe is negative, the binary search misses. -/
theorem binarySearchF_neg (rt : RowTracker) (id : TraceKey)
    (hneg : ∀ m : Int, 0 ≤ m → findTraceByID rt m.toNat id < 0) :
    ∀ (fuel : Nat) (lo hi : Int), 0 ≤ lo → binarySearchF fuel rt lo hi id = -1 := by
  intro fuel
  induction fuel with
  | zero => intro lo hi _; rfl
  | succ f ih =>
    intro lo hi hlo
    rw [binarySearchF_succ]
    by_cases hgt : lo > hi
    · rw [if_pos hgt]
    · rw [if_neg hgt]
      have hm := hneg ((lo + hi) / 2) (by omega)
      by_cases h1 : findTraceByID rt ((lo + hi) / 2).toNat id = SearchPrevious
      · rw [if_pos h1]
        exact ih lo ((lo + hi) / 2 - 1) hlo
      · rw [if_neg h1, if_pos hm]
        exact ih ((lo + hi) / 2 + 1) hi (by omega)

/-- The probe count is logarithmic: an interval shorter than `2 ^ j` is
searched with at most `j` probes. -/
theorem countProbesF_le (rt : RowTracker) (id : TraceKey) :
    ∀ (fuel : Nat) (j : Nat) (lo hi : Int), (hi + 1 - lo).toNat < 2 ^ j →
      countProbesF fuel rt lo hi id ≤ j := by
  intro fuel
  induction fuel with
  | zero => intro j lo hi _; exact Nat.zero_le j
  | succ f ih =>
    intro j lo hi hj
    rw [countProbesF_succ]
    by_cases hgt : lo > hi
    · rw [if_pos hgt]; exact Nat.zero_le j
    · rw [if_neg hgt]
      cases j with
      | zero =>
        rw [pow_zero] at hj
        omega
      | succ j' =>
        rw [pow_succ] at hj
        have hM : 0 < 2 ^ j' := pow_pos (by norm_num) j'
        by_cases h1 : findTraceByID rt ((lo + hi) / 2).toNat id = SearchPrevious
        · rw [if_pos h1]
          exact Nat.add_le_add_right (ih j' lo ((lo + hi) / 2 - 1) (by omega)) 1
        · rw [if_neg h1]
          by_cases h2 : findTraceByID rt ((lo + hi) / 2).toNat id < 0
          · rw [if_pos h2]
            exact Nat.add_le_add_right (ih j' ((lo + hi) / 2 + 1) hi (by omega)) 1
          · rw [if_neg h2]
            omega

instance (rgs : List RowGroup) : Decidable (WFBlock rgs) := by
  unfold WFBlock
  infer_instance

/-- A probe beyond the row-group list hits the default empty row group and
always comes back negative. -/
theorem probe_out_of_range (rgs : List RowGroup) (idx : Nat) (id : TraceKey)
    (h : rgs.length ≤ idx) :
    findTraceByID (mkRowTracker rgs) idx id < 0 := by
  rw [findTraceByID_eq,
    show (mkRowTracker rgs).rgs = rgs from rfl,
    List.getD_eq_default _ _ h]
  split_ifs <;>
    first
      | decide
      | (rw [show scanPages ({ pages := [], bloom := none } : RowGroup).pages
            ((mkRowTracker rgs).startRowNum.getD idx 0) id = NotFound from rfl]
         decide)

/-- C2, amended: in a well-formed block (non-empty row groups, exact page
bounds, strictly ascending unique ids) **whose row-group bloom filters all
pass the id**, the binary search finds the global row number of every present
id, and misses below-minimum / above-maximum ids within `ceil(log2 N) + 1`
probes.  Without the bloom hypothesis the search can be misrouted (see the
counterexample). -/
theorem claim_C2_amended (rgs : List RowGroup) (id : TraceKey)
    (hwf : WFBlock rgs)
    (hbloom : ∀ rg ∈ rgs, ∀ bf, rg.bloom = some bf → bf id = true) :
    (id ∈ blockValues rgs →
      binarySearch (mkRowTracker rgs) 0 ((rgs.length : Int) - 1) id
        = (keyIndex id (blockValues rgs) : Int)) ∧
    ((∀ v ∈ blockValues rgs, keyLt id v) ∨ (∀ v ∈ blockValues rgs, keyLt v id) →
      binarySearch (mkRowTracker rgs) 0 ((rgs.length : Int) - 1) id = -1 ∧
      countProbes (mkRowTracker rgs) 0 ((rgs.length : Int) - 1) id
        ≤ Nat.clog 2 rgs.length + 1) := by
  have hsub : ∀ (i : Nat), i < rgs.length →
      ∀ v ∈ rgValues (rgs.getD i ⟨[], none⟩), v ∈ blockValues rgs := by
    intro i hi v hv
    exact List.mem_flatten.mpr ⟨rgValues (rgs.getD i ⟨[], none⟩),
      List.mem_map_of_mem rgValues (getD_mem_of_lt rgs i _ hi), hv⟩
  constructor
  · intro hmem
    obtain ⟨rgv, hrgv, hidrg⟩ := List.mem_flatten.mp hmem
    obtain ⟨rg, hrgmem, rfl⟩ := List.mem_map.mp hrgv
    obtain ⟨pre, post, hsplit⟩ := List.append_of_mem hrgmem
    subst hsplit
    have hklt : pre.length < (pre ++ rg :: post).length := by
      rw [List.length_append, List.length_cons]; omega
    have hgetk : (pre ++ rg :: post).getD pre.length ⟨[], none⟩ = rg :=
      getD_append_length pre rg post _
    have htarget : (0:Int) ≤ (keyIndex id (blockValues (pre ++ rg :: post)) : Int) :=
      Int.natCast_nonneg _
    have hpro := probe_hit pre rg post id hwf (hbloom rg hrgmem) hidrg
    unfold binarySearch
    refine binarySearchF_hit _ id (pre.length : Int) _ htarget (by simpa using hpro)
      _ 0 _ (Nat.lt_succ_self _) le_rfl (by omega) (by omega) ?_ ?_
    · intro m h0 hhi hk
      have hin : m.toNat < (pre ++ rg :: post).length := by omega
      have hsp := split_at (pre ++ rg :: post) m.toNat ⟨[], none⟩ hin
      have hlt2 : ((pre ++ rg :: post).take m.toNat).length = m.toNat := by
        rw [List.length_take]; exact Nat.min_eq_left (by omega)
      have hall : ∀ v ∈ rgValues ((pre ++ rg :: post).getD m.toNat ⟨[], none⟩),
          keyLt v id := by
        intro v hv
        exact blockCross _ hwf.2 m.toNat pre.length (by omega) hklt v hv id
          (by rw [hgetk]; exact hidrg)
      have h := probe_gt_all ((pre ++ rg :: post).take m.toNat)
        ((pre ++ rg :: post).getD m.toNat ⟨[], none⟩)
        ((pre ++ rg :: post).drop (m.toNat + 1)) id (by rw [← hsp]; exact hwf) hall
      rw [← hsp, hlt2] at h
      exact h
    · intro m hhi hk
      have h0 : (0:Int) ≤ m := by omega
      have hin : m.toNat < (pre ++ rg :: post).length := by omega
      have hsp := split_at (pre ++ rg :: post) m.toNat ⟨[], none⟩ hin
      have hlt2 : ((pre ++ rg :: post).take m.toNat).length = m.toNat := by
        rw [List.length_take]; exact Nat.min_eq_left (by omega)
      have hall : ∀ v ∈ rgValues ((pre ++ rg :: post).getD m.toNat ⟨[], none⟩),
          keyLt id v := by
        intro v hv
        exact blockCross _ hwf.2 pre.length m.toNat (by omega) hin id
          (by rw [hgetk]; exact hidrg) v hv
      have h := probe_lt_all ((pre ++ rg :: post).take m.toNat)
        ((pre ++ rg :: post).getD m.toNat ⟨[], none⟩)
        ((pre ++ rg :: post).drop (m.toNat + 1)) id (by rw [← hsp]; exact hwf)
        (hbloom _ (getD_mem_of_lt _ m.toNat _ hin)) hall
      rw [← hsp, hlt2] at h
      exact h
  · intro hcase
    have hprobe_neg : ∀ m : Int, 0 ≤ m →
        findTraceByID (mkRowTracker rgs) m.toNat id < 0 := by
      intro m hm
      by_cases hin : m.toNat < rgs.length
      · have hsp := split_at rgs m.toNat ⟨[], none⟩ hin
        have hlt2 : (rgs.take m.toNat).length = m.toNat := by
          rw [List.length_take]; exact Nat.min_eq_left (by omega)
        rcases hcase with hlow | hhigh
        · have h := probe_lt_all (rgs.take m.toNat) (rgs.getD m.toNat ⟨[], none⟩)
            (rgs.drop (m.toNat + 1)) id (by rw [← hsp]; exact hwf)
            (hbloom _ (getD_mem_of_lt _ m.toNat _ hin))
            (fun v hv => hlow v (hsub m.toNat hin v hv))
          rw [← hsp, hlt2] at h
          rw [h]; decide
        · have h := probe_gt_all (rgs.take m.toNat) (rgs.getD m.toNat ⟨[], none⟩)
            (rgs.drop (m.toNat + 1)) id (by rw [← hsp]; exact hwf)
            (fun v hv => hhigh v (hsub m.toNat hin v hv))
          rw [← hsp, hlt2] at h
          exact h.1
      · exact probe_out_of_range rgs m.toNat id (by omega)
    constructor
    · unfold binarySearch
      exact binarySearchF_neg _ id hprobe_neg _ 0 _ le_rfl
    · unfold countProbes
      apply countProbesF_le
      have h2 : rgs.length ≤ 2 ^ Nat.clog 2 rgs.length :=
        Nat.le_pow_clog (by norm_num) _
      have h3 : 0 < 2 ^ Nat.clog 2 rgs.length := pow_pos (by norm_num) _
      rw [pow_succ]
      omega

/-! ### Concrete blocks for the finder claims -/

/-- Single-value page holding trace id `[v]`. -/
def onePage (v : Nat) : Page := ⟨[[[v]]], false, [v], [v], true, 1⟩

/-- Counterexample block for C2: three sorted row groups holding `[97]`,
`[99]`, `[101]`; the middle row group carries a bloom filter that honestly
rejects `[97]` (which it does not contain). -/
def c2block : List RowGroup :=
  [⟨[onePage 97], none⟩, ⟨[onePage 99], some (fun _ => false)⟩,
   ⟨[onePage 101], none⟩]

/-- Witness block for C2: two bloom-less sorted row groups `[10]`, `[20]`. -/
def c2wBlock : List RowGroup := [⟨[onePage 10], none⟩, ⟨[onePage 20], none⟩]

/-- Page with values `[97]`, `[99]`: its bounds admit `[98]` without
containing it. -/
def c7pageA : Page := ⟨[[[97], [99]]], false, [97], [99], true, 2⟩

/-- Page containing `[98]`. -/
def c7pageB : Page := ⟨[[[98]]], false, [98], [98], true, 1⟩

/-- Witness pages for C7. -/
def c7wq : Page := ⟨[[[5]]], false, [5], [5], true, 1⟩

def c7wp : Page := ⟨[[[7], [9]]], false, [7], [9], true, 2⟩

def c7wp2 : Page := ⟨[[[11]]], false, [11], [11], true, 1⟩

/-- Block for C3: the only page physically holds `[98]` (its column-index
bounds say so), but the page reader fails after delivering the batch holding
only `[97]` — `tailErr` records the swallowed read error. -/
def c3page : Page := ⟨[[[97]]], true, [97], [98], true, 2⟩

def c3blk : BackendBlock := ⟨.ok true, true, [⟨[c3page], none⟩], []⟩

/-- Block for C3 whose bloom fetch fails. -/
def c3blkF : BackendBlock := ⟨.fetchErr, true, [⟨[c3page], none⟩], []⟩

/-- C2 counterexample: in `c2block` the id `[97]` is present (global row 0)
and every bloom filter answers honestly, yet the binary search returns a
miss: the probe of the middle row group reports `NotFound` on its bloom
negative, which the search treats like `SearchNext`, recursing away from the
row group that holds the id. -/
theorem claim_C2_counterexample :
    WFBlock c2block ∧ [97] ∈ blockValues c2block ∧
    binarySearch (mkRowTracker c2block) 0 ((c2block.length : Int) - 1) [97] = -1 := by
  refine ⟨by decide, by decide, ?_⟩
  rfl

/-- Witness for C2: the amended theorem applied to the concrete two-row-group
block `c2wBlock`, finding `[20]` at global row 1 and missing `[30]` within
`ceil(log2 2) + 1 = 2` probes. -/
theorem claim_C2_amended_witness :
    binarySearch (mkRowTracker c2wBlock) 0 ((c2wBlock.length : Int) - 1) [20]
      = (keyIndex [20] (blockValues c2wBlock) : Int) ∧
    binarySearch (mkRowTracker c2wBlock) 0 ((c2wBlock.length : Int) - 1) [30] = -1 ∧
    countProbes (mkRowTracker c2wBlock) 0 ((c2wBlock.length : Int) - 1) [30]
      ≤ Nat.clog 2 c2wBlock.length + 1 := by
  have hbloom : ∀ (id : TraceKey), ∀ rg ∈ c2wBlock, ∀ bf,
      rg.bloom = some bf → bf id = true := by
    intro id rg hrg bf hbf
    rcases List.mem_cons.mp hrg with rfl | hrg2
    · exact Option.noConfusion hbf
    · rcases List.mem_cons.mp hrg2 with rfl | hrg3
      · exact Option.noConfusion hbf
      · cases hrg3
  have h20 := claim_C2_amended c2wBlock [20] (by decide) (hbloom [20])
  have h30 := claim_C2_amended c2wBlock [30] (by decide) (hbloom [30])
  exact ⟨h20.1 (by decide), (h30.2 (Or.inr (by decide))).1,
    (h30.2 (Or.inr (by decide))).2⟩

/-- C7, amended: within a row-group probe the pages are visited in order;
every page whose max bound is below the id advances the running row counter
by its row count; the first page whose bounds admit the id is linearly
scanned, a match returning the running row number plus the index of the first
matching value; if that scanned page holds no match the loop returns
`NotFound` immediately — the remaining pages are **not** visited (the
source's unconditional `break` after the first scanned page). -/
theorem claim_C7_amended (before : List Page) (p : Page) (after : List Page)
    (id : TraceKey) (r : Int)
    (hb : ∀ q ∈ before, q.hasBounds = true ∧ cmpId q.maxV id = .lt ∧
      ¬ cmpId id q.minV = .lt)
    (hp : ¬ (p.hasBounds = true ∧ cmpId p.maxV id = .lt))
    (hpmin : ¬ (p.hasBounds = true ∧ cmpId id p.minV = .lt)) :
    (id ∈ p.values →
      scanPages (before ++ p :: after) r id
        = r + (before.map Page.numRows).sum + (keyIndex id p.values : Int)) ∧
    (id ∉ p.values →
      scanPages (before ++ p :: after) r id = NotFound) := by
  constructor
  · intro hmem
    rw [scanPages_split before p after id r hb hp, if_neg hpmin, scanBatches_eq,
      show p.batches.flatten = p.values from rfl,
      firstMatch_of_mem p.values id hmem]
    rfl
  · intro hnm
    rw [scanPages_split before p after id r hb hp, if_neg hpmin, scanBatches_eq,
      show p.batches.flatten = p.values from rfl,
      firstMatch_of_not_mem p.values id hnm]
    rfl

/-- C7 counterexample: in the two-page row group `[c7pageA, c7pageB]` the id
`[98]` lives in the second page, but the first page's bounds `[97]..[99]`
admit it; the scan of that first page misses and the loop returns `NotFound`
without ever visiting the second page — refuting "NotFound is returned only
after all pages of the row group have been exhausted". -/
theorem claim_C7_counterexample :
    [98] ∈ c7pageB.values ∧
    scanPages [c7pageA, c7pageB] 0 [98] = NotFound := by
  refine ⟨by decide, ?_⟩
  rfl

/-- Witness for C7: the amended theorem applied to the concrete pages
`[c7wq] ++ c7wp :: [c7wp2]` — the hit `[9]` is found at running row
`0 + 1 + 1`, and the miss `[8]` (admitted by `c7wp`'s bounds `[7]..[9]` but
absent) returns `NotFound` with the last page unvisited. -/
theorem claim_C7_amended_witness :
    scanPages ([c7wq] ++ c7wp :: [c7wp2]) 0 [9]
      = 0 + ([c7wq].map Page.numRows).sum + (keyIndex [9] c7wp.values : Int) ∧
    scanPages ([c7wq] ++ c7wp :: [c7wp2]) 0 [8] = NotFound :=
  ⟨(claim_C7_amended [c7wq] c7wp [c7wp2] [9] 0 (by decide) (by decide)
      (by decide)).1 (by decide),
   (claim_C7_amended [c7wq] c7wp [c7wp2] [8] 0 (by decide) (by decide)
      (by decide)).2 (by decide)⟩

/-- C3: a bloom fetch failure is surfaced as an error (first conjunct), but a
page read error hit during the in-page value scan is **not**: in `c3blk` the
only page's reader fails (`tailErr = true`) after delivering a batch that
does not contain `[98]`, and `FindTraceByID` silently reports the legitimate-
miss value `(nil, nil)` — `.ok none` — instead of an error, contradicting
"for every page read error occurring during the in-page value scan, the
failure is surfaced as an error to the caller". -/
theorem claim_C3_code_bug :
    FindTraceByID c3blkF [98] = .error .bloomFetch ∧
    c3page.tailErr = true ∧
    FindTraceByID c3blk [98] = .ok none := by
  refine ⟨rfl, rfl, ?_⟩
  rfl

end Vparquet

